import Mathlib

/-!
Verification of the Amazons decision engine (`src/bots/bot026.cpp`, with the
protocol layer shared with `src/bots/bot.cpp`).

The C++ source is shallowly embedded:
* the 64-cell board is a `List Int` (cell codes exactly as in the source:
  `EMPTY = 0`, `BLACK = 1`, `WHITE = -1`, `OBSTACLE = 2`);
* the two nested ray-cast loops of `Board::get_legal_moves` become
  fuel-bounded slides (`slideEmpty`, `slideShot`); on an 8×8 board a ray has
  at most 7 steps, so fuel 8 is never the binding bound;
* the global bump-allocated move/node pools of the Monte-Carlo search become
  lists that only grow, with the source's capacity guards kept;
* `float`/`double` accumulations (`wins`, `win_prob`, the evaluator) are
  modelled over `ℚ` (every evaluator operation in the source is a rational
  function of its inputs); the UCB1 selection formula, which uses `sqrtf`,
  `logf` and `expf`, is modelled over `ℝ`.
-/

namespace Amazons

/-! ## Board, moves and the move generator (bot026.cpp lines 13-202) -/

/-- `const int EMPTY = 0;` -/
def EMPTY : Int := 0

/-- `const int BLACK = 1;` -/
def BLACK : Int := 1

/-- `const int WHITE = -1;` -/
def WHITE : Int := -1

/-- `const int OBSTACLE = 2;` -/
def OBSTACLE : Int := 2

/-- `struct Move { int8_t x0, y0, x1, y1, x2, y2; }`.  Coordinates generated
by the engine always lie in `[-1, 7]`, so the `int8_t` narrowing in the source
never wraps; we use `Int`. -/
structure Move where
  x0 : Int
  y0 : Int
  x1 : Int
  y1 : Int
  x2 : Int
  y2 : Int
deriving DecidableEq, Repr, Inhabited

/-- The sentinel `Move(-1,-1,-1,-1,-1,-1)` returned when there is no move. -/
def sentinelMove : Move := ⟨-1, -1, -1, -1, -1, -1⟩

/-- `int8_t grid[NUM_SQUARES]` — row-major, cell `(x, y)` at index `x*8+y`. -/
abbrev Board := List Int

/-- `const int DIRECTIONS[8][2]` of bot026.cpp (N, S, W, E, NW, NE, SW, SE). -/
def DIRECTIONS : List (Int × Int) :=
  [(-1, 0), (1, 0), (0, -1), (0, 1), (-1, -1), (-1, 1), (1, -1), (1, 1)]

/-- The bounds check `nx >= 0 && nx < 8 && ny >= 0 && ny < 8`. -/
def inB (x y : Int) : Prop := 0 ≤ x ∧ x < 8 ∧ 0 ≤ y ∧ y < 8

instance (x y : Int) : Decidable (inB x y) := by unfold inB; infer_instance

/-- 1-D index `x * 8 + y` of an in-bounds cell. -/
def idxI (x y : Int) : Nat := (x * 8 + y).toNat

/-- `grid[nx * 8 + ny]`; only ever used after an `inB` check, as in the
source, so the out-of-range default is irrelevant. -/
def cellAt (g : Board) (x y : Int) : Int := g.getD (idxI x y) EMPTY

/-- `Board::init_board` (bot026.cpp lines 91-95). -/
def init_board : Board :=
  ((((((((List.replicate 64 EMPTY).set (0 * 8 + 2) BLACK).set (2 * 8 + 0) BLACK).set
      (5 * 8 + 0) BLACK).set (7 * 8 + 2) BLACK).set (0 * 8 + 5) WHITE).set
      (2 * 8 + 7) WHITE).set (5 * 8 + 7) WHITE).set (7 * 8 + 5) WHITE

/-- `Board::apply_move` (bot026.cpp lines 192-201): source → Empty,
destination → the moved piece, obstacle cell → Obstacle, in that order. -/
def apply_move (g : Board) (m : Move) : Board :=
  let p := idxI m.x0 m.y0
  let t := idxI m.x1 m.y1
  let s := idxI m.x2 m.y2
  let piece := g.getD p EMPTY
  ((g.set p EMPTY).set t piece).set s OBSTACLE

/-- The movement-phase ray cast of `Board::get_legal_moves` (bot026.cpp lines
151-157): step from `(x, y)` in direction `(dx, dy)` collecting cells while
they are in bounds and Empty.  Fuel 8 exceeds the longest possible ray (7
steps), so the recursion always stops at the source's loop exit condition. -/
def slideEmpty (g : Board) (x y dx dy : Int) : Nat → List (Int × Int)
  | 0 => []
  | fuel + 1 =>
    let nx := x + dx
    let ny := y + dy
    if inB nx ny ∧ cellAt g nx ny = EMPTY then
      (nx, ny) :: slideEmpty g nx ny dx dy fuel
    else []

/-- The shot-phase ray cast of `Board::get_legal_moves` (bot026.cpp lines
168-184): from the landing square, a cell continues the ray when it is Empty
*or* is the vacated source square `p` (`grid[a_idx] != EMPTY && a_idx != p`
breaks). -/
def slideShot (g : Board) (p : Nat) (x y dx dy : Int) : Nat → List (Int × Int)
  | 0 => []
  | fuel + 1 =>
    let ax := x + dx
    let ay := y + dy
    if inB ax ay ∧ (cellAt g ax ay = EMPTY ∨ idxI ax ay = p) then
      (ax, ay) :: slideShot g p ax ay dx dy fuel
    else []

/-- `Board::get_legal_moves` (bot026.cpp lines 102-190), as the full list of
emitted moves in emission order.  The source emits into the global move pool
and, once `move_pool_ptr` reaches `MAX_MOVES_POOL`, drops every later
emission (each further iteration of the innermost loop hits the pool-full
`break` before emitting); the emitted block is therefore exactly a prefix of
this list, which is how the search model below consumes it (`List.take`). -/
def get_legal_moves (g : Board) (color : Int) : List Move :=
  (List.range 64).flatMap fun p =>
    if g.getD p EMPTY = color then
      let px : Int := (p : Int) / 8
      let py : Int := (p : Int) % 8
      DIRECTIONS.flatMap fun d =>
        (slideEmpty g px py d.1 d.2 8).flatMap fun t =>
          DIRECTIONS.flatMap fun a =>
            (slideShot g p t.1 t.2 a.1 a.2 8).map fun s =>
              Move.mk px py t.1 t.2 s.1 s.2
    else []

/-- Number of cells holding value `v` (piece count when `v` is a colour). -/
def countCells (g : Board) (v : Int) : Nat := g.countP (fun x => x == v)

/-- The full conclusion of claim C1 for a board `g`, mover colour `c` and
generated move `m` (see `claim_C1`). -/
def MoveEffectOK (g : Board) (c : Int) (m : Move) : Prop :=
  g.getD (idxI m.x0 m.y0) EMPTY = c ∧
  idxI m.x0 m.y0 < 64 ∧ idxI m.x1 m.y1 < 64 ∧ idxI m.x2 m.y2 < 64 ∧
  idxI m.x0 m.y0 ≠ idxI m.x1 m.y1 ∧ idxI m.x1 m.y1 ≠ idxI m.x2 m.y2 ∧
  g.getD (idxI m.x1 m.y1) EMPTY = EMPTY ∧
  (g.getD (idxI m.x2 m.y2) EMPTY = EMPTY ∨ idxI m.x2 m.y2 = idxI m.x0 m.y0) ∧
  (g.set (idxI m.x0 m.y0) EMPTY).getD (idxI m.x0 m.y0) EMPTY = EMPTY ∧
  ((g.set (idxI m.x0 m.y0) EMPTY).set (idxI m.x1 m.y1) c).getD (idxI m.x1 m.y1) EMPTY = c ∧
  ((g.set (idxI m.x0 m.y0) EMPTY).set (idxI m.x1 m.y1) c).getD (idxI m.x2 m.y2) EMPTY = EMPTY ∧
  apply_move g m = ((g.set (idxI m.x0 m.y0) EMPTY).set (idxI m.x1 m.y1) c).set
    (idxI m.x2 m.y2) OBSTACLE ∧
  (∀ i, g.getD i EMPTY = OBSTACLE → (apply_move g m).getD i EMPTY = OBSTACLE) ∧
  (∀ i, i ≠ idxI m.x0 m.y0 → i ≠ idxI m.x1 m.y1 → i ≠ idxI m.x2 m.y2 →
    (apply_move g m).getD i EMPTY = g.getD i EMPTY) ∧
  countCells (apply_move g m) BLACK = countCells g BLACK ∧
  countCells (apply_move g m) WHITE = countCells g WHITE

/-- Witness board for C1: a Black piece at `(0,0)`, one Empty cell at `(0,1)`,
Obstacles everywhere else; Black's unique legal move steps east and shoots
back onto the vacated square. -/
def gC1 : Board := BLACK :: EMPTY :: List.replicate 62 OBSTACLE

/-- The unique legal move on `gC1`. -/
def mC1 : Move := ⟨0, 0, 0, 1, 0, 0⟩

/-! ## Evaluator (bot026.cpp lines 263-401) -/

/-- The ascending-index collection of a side's piece cells performed by the
loop at bot026.cpp lines 362-365.  The source stores them in fixed arrays of
four (the per-side piece count of every reachable game position); the list
model is its total extension. -/
def piecesOf (g : Board) (c : Int) : List Nat :=
  (List.range 64).filter (fun i => g.getD i EMPTY == c)

/-- One pop of the BFS queue of `run_bfs` (bot026.cpp lines 285-305): relax
the 8 neighbours of `curr`, pushing every Empty cell whose recorded distance
improves.  The distance array is threaded through the direction loop exactly
as the in-place `dist_out` mutation does. -/
def bfs_loop (g : Board) : Nat → List Nat → List Nat → List Nat
  | 0, _, dist => dist
  | _ + 1, [], dist => dist
  | fuel + 1, curr :: rest, dist =>
    let d := dist.getD curr 99 + 1
    let cx : Int := (curr : Int) / 8
    let cy : Int := (curr : Int) % 8
    let step := DIRECTIONS.foldl
      (fun (acc : List Nat × List Nat) dir =>
        let nx := cx + dir.1
        let ny := cy + dir.2
        if inB nx ny ∧ g.getD (idxI nx ny) EMPTY = EMPTY ∧ d < acc.1.getD (idxI nx ny) 99 then
          (acc.1.set (idxI nx ny) d, acc.2 ++ [idxI nx ny])
        else acc)
      (dist, [])
    bfs_loop g fuel (rest ++ step.2) step.1

/-- `run_bfs` (bot026.cpp lines 272-306): multi-source BFS over Empty cells,
sources at distance 0, unreached cells at the sentinel 99.  A cell is pushed
only when its recorded distance strictly decreases, which can happen at most
99 times per cell, so fuel `6500 > 64 * 99 + 64` bounds the total number of
pops of any execution; the recursion always stops at the source's `head <
tail` loop exit. -/
def run_bfs (g : Board) (sources : List Nat) : List Nat :=
  let init := sources.foldl
    (fun (acc : List Nat × List Nat) s => (acc.1.set s 0, acc.2 ++ [s]))
    (List.replicate 64 99, [])
  bfs_loop g 6500 init.2 init.1

/-- The `while` loop of `calc_mobility` (bot026.cpp lines 318-323): number of
consecutive in-bounds Empty cells along the ray from `(x, y)` in direction
`(dx, dy)`.  As with the slides, fuel 8 exceeds any possible ray length. -/
def ray_count (g : Board) (x y dx dy : Int) : Nat → Nat
  | 0 => 0
  | fuel + 1 =>
    let nx := x + dx
    let ny := y + dy
    if inB nx ny ∧ g.getD (idxI nx ny) EMPTY = EMPTY then
      1 + ray_count g nx ny dx dy fuel
    else 0

/-- `calc_mobility` (bot026.cpp lines 308-327): sum, over the side's pieces
and the 8 ray directions, of the length of the Empty ray from the piece. -/
def calc_mobility (g : Board) (pieces : List Nat) : Nat :=
  pieces.foldl
    (fun mob (p : Nat) =>
      DIRECTIONS.foldl
        (fun mob2 dir => mob2 + ray_count g ((p : Int) / 8) ((p : Int) % 8) dir.1 dir.2 8)
        mob)
    0

/-- `static const double POW2[]` (bot026.cpp line 371). -/
def POW2 : List ℚ := [0, 1/2, 1/4, 1/8, 1/16, 1/32, 1/64, 1/128, 1/256]

/-- Per-cell Territory update (bot026.cpp lines 379-384, `scores[0]`). -/
def territoryCell (dm do_ : Nat) : ℚ :=
  if dm < do_ then 1 else if do_ < dm then -1 else 0

/-- Per-cell Near-territory update (bot026.cpp lines 379-384, `scores[1]`). -/
def ktCell (dm do_ : Nat) : ℚ :=
  if dm < do_ then (if dm < 4 then ((4 - dm : ℤ) : ℚ) else 0)
  else if do_ < dm then -(if do_ < 4 then ((4 - do_ : ℤ) : ℚ) else 0)
  else 0

/-- Per-cell Position update (bot026.cpp lines 386-388, `scores[2]`). -/
def qpCell (dm do_ : Nat) : ℚ :=
  (if dm < 9 then POW2.getD dm 0 else 0) - (if do_ < 9 then POW2.getD do_ 0 else 0)

/-- Per-cell Near-position update (bot026.cpp lines 390-391, `scores[3]`). -/
def kpCell (dm do_ : Nat) : ℚ :=
  (if dm < 6 then 1 / ((dm : ℚ) + 1) else 0) - (if do_ < 6 then 1 / ((do_ : ℚ) + 1) else 0)

/-- The two `continue` guards of the accumulation loop (bot026.cpp lines
373-377): only Empty cells reached by at least one side contribute. -/
def cellGuard (g : Board) (i : Nat) (dm do_ : Nat) (f : Nat → Nat → ℚ) : ℚ :=
  if g.getD i EMPTY = EMPTY then (if dm = 99 ∧ do_ = 99 then 0 else f dm do_) else 0

/-- The five raw evaluation components `scores[0..4]` of `evaluate`
(bot026.cpp lines 357-394), before weighting and sigmoid squashing. -/
structure EvalScores where
  qt : ℚ
  kt : ℚ
  qp : ℚ
  kp : ℚ
  mob : ℚ
deriving Repr

/-- The component computation of `evaluate` (bot026.cpp lines 357-394). -/
def evalScores (g : Board) (player : Int) : EvalScores :=
  let my := piecesOf g player
  let op := piecesOf g (-player)
  let dist_my := run_bfs g my
  let dist_op := run_bfs g op
  { qt := ((List.range 64).map
      (fun i => cellGuard g i (dist_my.getD i 99) (dist_op.getD i 99) territoryCell)).sum
    kt := ((List.range 64).map
      (fun i => cellGuard g i (dist_my.getD i 99) (dist_op.getD i 99) ktCell)).sum
    qp := ((List.range 64).map
      (fun i => cellGuard g i (dist_my.getD i 99) (dist_op.getD i 99) qpCell)).sum
    kp := ((List.range 64).map
      (fun i => cellGuard g i (dist_my.getD i 99) (dist_op.getD i 99) kpCell)).sum
    mob := ((calc_mobility g my : ℤ) : ℚ) - ((calc_mobility g op : ℤ) : ℚ) }

/-- `const double WEIGHTS_TABLE[28][5]` (bot026.cpp lines 336-351). -/
def WEIGHTS_TABLE : List (List ℚ) :=
  [[0.07747, 0.05755, 0.64627, 0.70431, 0.02438], [0.05093, 0.06276, 0.69898, 0.66192, 0.02362],
   [0.06036, 0.06253, 0.60094, 0.67719, 0.01873], [0.07597, 0.06952, 0.69061, 0.67989, 0.02098],
   [0.08083, 0.08815, 0.58981, 0.54664, 0.02318], [0.09155, 0.08397, 0.56392, 0.54319, 0.02317],
   [0.10653, 0.10479, 0.54840, 0.53023, 0.02084], [0.11534, 0.11515, 0.53325, 0.52423, 0.02237],
   [0.12943, 0.12673, 0.50841, 0.52208, 0.02490], [0.12882, 0.13946, 0.49621, 0.51776, 0.03045],
   [0.13701, 0.15338, 0.47601, 0.51500, 0.03249], [0.14530, 0.15565, 0.45365, 0.50934, 0.03830],
   [0.14521, 0.16388, 0.44531, 0.50517, 0.04864], [0.13750, 0.16326, 0.43619, 0.50328, 0.05912],
   [0.13565, 0.15529, 0.42382, 0.50288, 0.07437], [0.12382, 0.10361, 0.50487, 0.55808, 0.02791],
   [0.11809, 0.14632, 0.40738, 0.41782, 0.10308], [0.10805, 0.15043, 0.40520, 0.43073, 0.10967],
   [0.09668, 0.15666, 0.40215, 0.44165, 0.10906], [0.10585, 0.16319, 0.38220, 0.45465, 0.10062],
   [0.11123, 0.15516, 0.36904, 0.46534, 0.09118], [0.12535, 0.10492, 0.35567, 0.48043, 0.08337],
   [0.28657, 0.16655, 0.38060, 0.42472, 0.10316], [0.07143, 0.16655, 0.36658, 0.39520, 0.02194],
   [0.07143, 0.16655, 0.36658, 0.39520, 0.02194], [0.07143, 0.16655, 0.36658, 0.39520, 0.02194],
   [0.07143, 0.16655, 0.36658, 0.39520, 0.02194], [0.07143, 0.14627, 0.36658, 0.39520, 0.02194]]

/-- `fast_sigmoid` (bot026.cpp lines 353-355). -/
def fast_sigmoid (x : ℚ) : ℚ := (1 / 2) * (x / (1 + |x|) + 1)

/-- `evaluate` (bot026.cpp lines 357-401): weighted sum of the five
components with the move-number-indexed row (clamped at 27), scaled by 0.2
and squashed. -/
def evaluate (g : Board) (root_player : Int) (turn : Nat) : ℚ :=
  let s := evalScores g root_player
  let idx := if 28 ≤ turn then 27 else turn
  let w := WEIGHTS_TABLE.getD idx []
  let total := s.qt * w.getD 0 0 + s.kt * w.getD 1 0 + s.qp * w.getD 2 0 +
    s.kp * w.getD 3 0 + s.mob * w.getD 4 0
  fast_sigmoid (total * 0.2)

/-- Modelled from the words of claim C5: "count of empty squares immediately
reachable by single-step sliding in all 8 directions" — i.e. at most the 8
adjacent Empty cells per piece.  Defined only to be compared against the
source's `calc_mobility`. -/
def claimKingMobility (g : Board) (pieces : List Nat) : Nat :=
  pieces.foldl
    (fun mob (p : Nat) =>
      DIRECTIONS.foldl
        (fun mob2 dir =>
          mob2 + (if inB ((p : Int) / 8 + dir.1) ((p : Int) % 8 + dir.2) ∧
              g.getD (idxI ((p : Int) / 8 + dir.1) ((p : Int) % 8 + dir.2)) EMPTY = EMPTY
            then 1 else 0))
        mob)
    0

/-- Geometric description of a queen-reachable Empty cell: `e` lies `k ≥ 1`
steps from piece `p` along one of the 8 rays, with every intermediate cell
(and `e` itself) in bounds and Empty. -/
def qreach (g : Board) (p e : Nat) : Prop :=
  ∃ d ∈ DIRECTIONS, ∃ k ∈ List.range 8, 1 ≤ k ∧
    (∀ j ∈ List.range (k + 1), 1 ≤ j →
      inB ((p : Int) / 8 + j * d.1) ((p : Int) % 8 + j * d.2) ∧
        cellAt g ((p : Int) / 8 + j * d.1) ((p : Int) % 8 + j * d.2) = EMPTY) ∧
    e = idxI ((p : Int) / 8 + k * d.1) ((p : Int) % 8 + k * d.2)

instance (g : Board) (p e : Nat) : Decidable (qreach g p e) := by
  unfold qreach; infer_instance

/-- Number of board cells queen-reachable from piece `p`. -/
def pieceReachCount (g : Board) (p : Nat) : Nat :=
  ((List.range 64).filter (fun e => decide (qreach g p e))).length

/-- Counterexample board for C5: Black pieces on row 0 (columns 0-3) with
long open rays, White's four pieces walled into the bottom-right corner by
Obstacles. -/
def gC5 : Board :=
  [BLACK, BLACK, BLACK, BLACK, EMPTY, EMPTY, EMPTY, EMPTY,
   EMPTY, EMPTY, EMPTY, EMPTY, EMPTY, EMPTY, EMPTY, EMPTY,
   EMPTY, EMPTY, EMPTY, EMPTY, EMPTY, EMPTY, EMPTY, EMPTY,
   EMPTY, EMPTY, EMPTY, EMPTY, EMPTY, EMPTY, EMPTY, EMPTY,
   EMPTY, EMPTY, EMPTY, EMPTY, EMPTY, EMPTY, EMPTY, EMPTY,
   EMPTY, EMPTY, EMPTY, EMPTY, EMPTY, EMPTY, EMPTY, EMPTY,
   EMPTY, EMPTY, EMPTY, OBSTACLE, OBSTACLE, OBSTACLE, OBSTACLE, OBSTACLE,
   EMPTY, EMPTY, EMPTY, OBSTACLE, WHITE, WHITE, WHITE, WHITE]

/-! ## Monte-Carlo tree search (bot026.cpp lines 60-537)

The node and move pools are modelled as lists whose lengths are the bump
pointers `node_pool_ptr` and `move_pool_ptr`; arena pointers become list
indices, with `none` for the null pointer.  The `float` accumulators are
modelled over `ℚ`.  Two parameters abstract the parts of one iteration whose
exact numeric behaviour lives in other components: `sel` is the UCB child
choice (`uct_select_child`, settled separately over `ℝ`), and `evalFn` is
the evaluator (`evaluate` above, taken as a parameter so that *independence*
from it expresses "the evaluator is not invoked"). -/

/-- `const int MAX_NODES = 10000000;` -/
def MAX_NODES : Nat := 10000000

/-- `const int MAX_MOVES_POOL = 70000000;` -/
def MAX_MOVES_POOL : Nat := 70000000

/-- `fast_rand` (bot026.cpp lines 52-58): one xorshift32 step.  The `% 2^32`
keeps the value in `uint32_t` range (xor respects the truncation, so
truncating once after each left shift is exact). -/
def fast_rand (x : Nat) : Nat :=
  let a := (x ^^^ (x <<< 13)) % 2 ^ 32
  let b := a ^^^ (a >>> 17)
  (b ^^^ (b <<< 5)) % 2 ^ 32

/-- `MCTSNode` (bot026.cpp lines 205-253), arena pointers as pool indices. -/
structure SNode where
  parent : Option Nat
  first_child : Option Nat
  next_sibling : Option Nat
  move : Move
  moves_start : Nat
  moves_count : Nat
  wins : ℚ
  visits : Nat
  player_just_moved : Int
deriving DecidableEq, Repr

instance : Inhabited SNode :=
  ⟨⟨none, none, none, default, 0, 0, 0, 0, 0⟩⟩

/-- The global mutable search state: the two pools (list lengths are the
allocation pointers), the RNG state, and the running robust-child tracking
`best_child_global` / `max_visits_global` (bot026.cpp lines 405-406). -/
structure SState where
  nodes : List SNode
  move_pool : List Move
  rng : Nat
  best_child : Option Nat
  max_visits : Int
deriving DecidableEq, Repr

/-- The node at pool index `i`.  The source never dereferences an invalid
index; the default is the all-zero node (null-like: no parent, no children,
no moves). -/
def SState.node (st : SState) (i : Nat) : SNode := st.nodes.getD i default

/-- The pool indices whose node records parent `i`.  In every reachable state
these are exactly the nodes linked into `i`'s child list. -/
def childrenOf (st : SState) (i : Nat) : List Nat :=
  (List.range st.nodes.length).filter fun c => (st.node c).parent == some i

/-- A concrete child-choice function usable wherever a valid selector is
needed: the first recorded child. -/
def firstChildSel (st : SState) (i : Nat) : Nat := (childrenOf st i).headD 0

/-- The selection loop (bot026.cpp lines 436-440) with the UCB child choice
abstracted into `sel`: while the current node has no untried moves but has
children, descend to the chosen child, applying its move and flipping the
side to move.  In reachable states children have strictly larger indices
than their parents (they are allocated later), so fuel `st.nodes.length`
outlasts the descent. -/
def selectLoop (sel : SState → Nat → Nat) (st : SState) :
    Nat → Nat → Board → Int → Nat × Board × Int
  | 0, i, b, cur => (i, b, cur)
  | fuel + 1, i, b, cur =>
    let n := st.node i
    if n.moves_count = 0 ∧ n.first_child ≠ none then
      let c := sel st i
      selectLoop sel st fuel c (apply_move b (st.node c).move) (-cur)
    else (i, b, cur)

/-- One step of the backpropagation walk at node `j`: increment the visit
count, track the best root child (the update fires when `j`'s parent is the
root, pool index 0, and the new visit count strictly exceeds
`max_visits_global`), and add the win probability from the perspective of
the player who just moved (bot026.cpp lines 501-527). -/
def backstep (root_player : Int) (win_prob : ℚ) (st : SState) (j : Nat) : SState :=
  let n := st.node j
  let v := n.visits + 1
  { st with
    nodes := st.nodes.set j
      { n with
        visits := v
        wins := n.wins +
          (if n.player_just_moved = root_player then win_prob else 1 - win_prob) }
    best_child :=
      if n.parent = some 0 ∧ st.max_visits < (v : Int) then some j else st.best_child
    max_visits :=
      if n.parent = some 0 ∧ st.max_visits < (v : Int) then (v : Int) else st.max_visits }

def backprop (root_player : Int) (win_prob : ℚ) :
    Nat → Option Nat → SState → SState
  | 0, _, st => st
  | _ + 1, none, st => st
  | fuel + 1, some j, st =>
    backprop root_player win_prob fuel (st.node j).parent (backstep root_player win_prob st j)

/-- The trace of one search iteration, alongside the updated state:
`win_prob` and `terminal` are the local variables of the loop body,
`sel_idx` the node reached by selection, `exp_player` the side to move at
the position the iteration scored, `new_count` the move count generated for
the newly allocated child (`none` when no child was allocated), and `oom`
records that `new_node` returned the null sentinel. -/
structure IterOut where
  state : SState
  win_prob : ℚ
  terminal : Bool
  sel_idx : Nat
  exp_player : Int
  new_count : Option Nat
  oom : Bool

/-- The untried move the expansion step picks at node `i` (bot026.cpp lines
448-450): the pool entry at the node's slice start plus `fast_rand() %
moves_count`. -/
def pickMove (st : SState) (i : Nat) : Move :=
  st.move_pool.getD
    ((st.node i).moves_start + fast_rand st.rng % (st.node i).moves_count) default

/-- Removal of the picked move from node `i`'s untried slice (bot026.cpp
lines 448-455): swap it with the slice's last entry and shrink the count;
the RNG state advances by the `fast_rand` call. -/
def removeMove (st : SState) (i : Nat) : SState :=
  let n := st.node i
  let r := fast_rand st.rng
  let offset := r % n.moves_count
  let idx := n.moves_start + offset
  let m := st.move_pool.getD idx default
  let last := n.moves_start + n.moves_count - 1
  { st with
    nodes := st.nodes.set i { n with moves_count := n.moves_count - 1 }
    move_pool := (st.move_pool.set idx (st.move_pool.getD last default)).set last m
    rng := r }

/-- Child allocation (bot026.cpp lines 460-472, `new_node` plus
`add_child`): append the child node (recording the generated untried slice
`gen`, placed at the pool's end) and link it as the parent's new first
child; `cur` is the player who just moved into the child. -/
def addChild (st1 : SState) (i : Nat) (m : Move) (cur : Int) (gen : List Move) : SState :=
  let new_idx := st1.nodes.length
  let child : SNode :=
    { parent := some i, first_child := none,
      next_sibling := (st1.node i).first_child,
      move := m, moves_start := st1.move_pool.length, moves_count := gen.length,
      wins := 0, visits := 0, player_just_moved := cur }
  { st1 with
    nodes := (st1.nodes.set i { (st1.node i) with first_child := some new_idx }) ++ [child]
    move_pool := st1.move_pool ++ gen }

/-- One iteration of the search loop body (bot026.cpp lines 431-531):
selection; expansion — pick a pool-random untried move, remove it by
swap-with-last, apply it, allocate a child unless the node pool is full,
lazily generate the child's untried moves (truncated by the move pool's
remaining capacity, see `get_legal_moves`), and score the position as an
immediate loss for the stuck side when the generated count is 0; terminal
scoring for a childless move-less leaf; evaluation of every non-terminal
reached state; backpropagation. -/
def iterate (sel : SState → Nat → Nat) (evalFn : Board → ℚ)
    (root_state : Board) (root_player : Int) (st : SState) : IterOut :=
  let sel_res := selectLoop sel st st.nodes.length 0 root_state root_player
  let i := sel_res.1
  let b := sel_res.2.1
  let cur := sel_res.2.2
  let n := st.node i
  if 0 < n.moves_count then
    let m := pickMove st i
    let st1 := removeMove st i
    let b' := apply_move b m
    let cur' := -cur
    if st1.nodes.length < MAX_NODES then
      let gen := (get_legal_moves b' cur').take (MAX_MOVES_POOL - st1.move_pool.length)
      let st2 := addChild st1 i m cur gen
      let win_prob : ℚ :=
        if gen.length = 0 then (if cur' = root_player then 0 else 1) else evalFn b'
      let out := backprop root_player win_prob st2.nodes.length (some st1.nodes.length) st2
      ⟨out, win_prob, decide (gen.length = 0), i, cur', some gen.length, false⟩
    else
      let win_prob := evalFn b'
      let out := backprop root_player win_prob st1.nodes.length (some i) st1
      ⟨out, win_prob, false, i, cur', none, true⟩
  else
    if n.first_child = none then
      let win_prob : ℚ := if n.player_just_moved = root_player then 1 else 0
      let out := backprop root_player win_prob st.nodes.length (some i) st
      ⟨out, win_prob, true, i, cur, none, false⟩
    else
      let win_prob := evalFn b
      let out := backprop root_player win_prob st.nodes.length (some i) st
      ⟨out, win_prob, false, i, cur, none, false⟩

/-- `k` consecutive iterations (the body between two deadline checks). -/
def runIters (sel : SState → Nat → Nat) (evalFn : Board → ℚ)
    (root_state : Board) (root_player : Int) : Nat → SState → SState
  | 0, st => st
  | k + 1, st =>
    runIters sel evalFn root_state root_player k
      (iterate sel evalFn root_state root_player st).state

/-- The break condition checked when `iterations & 0xFF == 0` (bot026.cpp
lines 425-429): `time_up` abstracts the wall-clock comparison
`steady_clock::now() >= deadline` at the check preceding iteration `iters`. -/
def stopCond (time_up : Nat → Bool) (st : SState) (iters : Nat) : Bool :=
  time_up iters || decide (MAX_NODES - 500 < st.nodes.length) ||
    decide (MAX_MOVES_POOL - 5000 < st.move_pool.length)

/-- The search loop (bot026.cpp lines 424-532) in blocks of 256 iterations:
the source checks the deadline and the pool high-water marks exactly before
iterations 0, 256, 512, …  Returns the final state and the number of
iterations executed; `blocks` is recursion fuel (the source loops until a
check fires — see `claim_C7` for the exit characterisation). -/
def searchLoop (sel : SState → Nat → Nat) (evalFn : Board → ℚ)
    (root_state : Board) (root_player : Int) (time_up : Nat → Bool) :
    Nat → SState → Nat → SState × Nat
  | 0, st, iters => (st, iters)
  | blocks + 1, st, iters =>
    if stopCond time_up st iters then (st, iters)
    else
      searchLoop sel evalFn root_state root_player time_up blocks
        (runIters sel evalFn root_state root_player 256 st) (iters + 256)

/-- Search initialisation (bot026.cpp lines 409-417): reset both pools,
allocate the root (null parent, `player_just_moved = -root_player`),
generate the root's untried moves into the move pool (truncated at the pool
capacity), reset the robust-child tracking to `(nullptr, -1)`.  The root's
`move` field is never read by the source (it is uninitialised there); the
sentinel stands in for it. -/
def initState (root_state : Board) (root_player : Int) (seed : Nat) : SState :=
  let gen := (get_legal_moves root_state root_player).take MAX_MOVES_POOL
  { nodes := [{ parent := none, first_child := none, next_sibling := none,
                move := sentinelMove, moves_start := 0, moves_count := gen.length,
                wins := 0, visits := 0, player_just_moved := -root_player }]
    move_pool := gen
    rng := seed
    best_child := none
    max_visits := -1 }

/-- Final move choice (bot026.cpp lines 534-536): the tracked robust child,
else the root's first child, else the no-move sentinel. -/
def searchResult (st : SState) : Move :=
  match st.best_child with
  | some c => (st.node c).move
  | none =>
    match (st.node 0).first_child with
    | some c => (st.node c).move
    | none => sentinelMove

/-- `search` (bot026.cpp lines 408-537): initialise, loop, choose. -/
def search (sel : SState → Nat → Nat) (evalFn : Board → ℚ)
    (root_state : Board) (root_player : Int) (time_up : Nat → Bool)
    (seed blocks : Nat) : Move :=
  searchResult
    (searchLoop sel evalFn root_state root_player time_up blocks
      (initState root_state root_player seed) 0).1

/-- The number of moves the root generation writes into the fresh move pool
(the length of the root's original untried slice). -/
def rootGenCount (root_state : Board) (root_player : Int) : Nat :=
  ((get_legal_moves root_state root_player).take MAX_MOVES_POOL).length

/-- Parent indices strictly decrease (children are allocated after their
parents). -/
def ParentLt (st : SState) : Prop := ∀ j k, (st.node j).parent = some k → k < j

/-- Every root child (parent index 0) has been visited at least once:
children are backpropagated through in the iteration that creates them. -/
def ChildVisits (st : SState) : Prop :=
  ∀ c, c < st.nodes.length → (st.node c).parent = some 0 → 1 ≤ (st.node c).visits

/-- Correctness of the running `best_child_global` / `max_visits_global`
pair: either nothing is tracked and the root has no children, or the tracked
child is a root child of maximal visit count, with `max_visits` equal to it. -/
def BestInv (st : SState) : Prop :=
  (st.best_child = none ∧ st.max_visits = -1 ∧
    ∀ c, c < st.nodes.length → (st.node c).parent ≠ some 0) ∨
  (∃ b, b < st.nodes.length ∧ st.best_child = some b ∧ (st.node b).parent = some 0 ∧
    st.max_visits = ((st.node b).visits : Int) ∧
    ∀ c, c < st.nodes.length → (st.node c).parent = some 0 →
      (st.node c).visits ≤ (st.node b).visits)

/-- Mid-iteration generalisation of `ChildVisits` ∧ `BestInv` holding just
before a backpropagation that starts at `cur`: a freshly expanded root child
may still have 0 visits provided it is the backpropagation start. -/
def BestInvGen (st : SState) (cur : Option Nat) : Prop :=
  ((∀ c, c < st.nodes.length → (st.node c).parent = some 0 → 1 ≤ (st.node c).visits ∨
      cur = some c) ∧
    ((st.best_child = none ∧ st.max_visits = -1 ∧
      ∀ c, c < st.nodes.length → (st.node c).parent = some 0 → cur = some c) ∨
    (∃ b, b < st.nodes.length ∧ st.best_child = some b ∧ (st.node b).parent = some 0 ∧
      st.max_visits = ((st.node b).visits : Int) ∧ 1 ≤ (st.node b).visits ∧
      ∀ c, c < st.nodes.length → (st.node c).parent = some 0 →
        (st.node c).visits ≤ (st.node b).visits)))

/-- The search-state invariant, for a search rooted at `root_state` /
`root_player`.  It records: the tree structure of the arena (children have
strictly larger indices, only the root lacks a parent), that every root
child has been visited, the correctness of the running robust-child
tracking, the equivalence of the root's child link with the existence of
root children, and the layout of the move pool (the root's original slice
occupies `[0, rootGenCount)`, holds only root-legal moves, and every other
node's slice lies beyond it — so the root's slice is never overwritten and
every root child's move is a generated root move). -/
structure Inv (root_state : Board) (root_player : Int) (st : SState) : Prop where
  len_pos : 0 < st.nodes.length
  root_parent : (st.node 0).parent = none
  parent_lt : ParentLt st
  fc_valid : ∀ j c, j < st.nodes.length → (st.node j).first_child = some c →
    c < st.nodes.length ∧ (st.node c).parent = some j
  child_visits : ChildVisits st
  best_inv : BestInv st
  root_fc : (st.node 0).first_child = none ↔
    ∀ c, c < st.nodes.length → (st.node c).parent ≠ some 0
  root_start : (st.node 0).moves_start = 0
  root_count : (st.node 0).moves_count ≤ rootGenCount root_state root_player
  region_mem : ∀ k, k < rootGenCount root_state root_player →
    st.move_pool.getD k default ∈ get_legal_moves root_state root_player
  region_len : rootGenCount root_state root_player ≤ st.move_pool.length
  nonroot_start : ∀ j, 0 < j → j < st.nodes.length →
    rootGenCount root_state root_player ≤ (st.node j).moves_start
  child_move : ∀ c, c < st.nodes.length → (st.node c).parent = some 0 →
    (st.node c).move ∈ get_legal_moves root_state root_player

/-- The invariant's structural and pool-layout fields as they hold
mid-iteration, just before a backpropagation starting at `cur`:
`BestInvGen` replaces the post-iteration `child_visits` / `best_inv` pair,
everything else is as in `Inv`. -/
structure PreInv (root_state : Board) (root_player : Int) (st : SState)
    (cur : Option Nat) : Prop where
  len_pos : 0 < st.nodes.length
  root_parent : (st.node 0).parent = none
  parent_lt : ParentLt st
  fc_valid : ∀ j c, j < st.nodes.length → (st.node j).first_child = some c →
    c < st.nodes.length ∧ (st.node c).parent = some j
  gen_inv : BestInvGen st cur
  root_fc : (st.node 0).first_child = none ↔
    ∀ c, c < st.nodes.length → (st.node c).parent ≠ some 0
  root_start : (st.node 0).moves_start = 0
  root_count : (st.node 0).moves_count ≤ rootGenCount root_state root_player
  region_mem : ∀ k, k < rootGenCount root_state root_player →
    st.move_pool.getD k default ∈ get_legal_moves root_state root_player
  region_len : rootGenCount root_state root_player ≤ st.move_pool.length
  nonroot_start : ∀ j, 0 < j → j < st.nodes.length →
    rootGenCount root_state root_player ≤ (st.node j).moves_start
  child_move : ∀ c, c < st.nodes.length → (st.node c).parent = some 0 →
    (st.node c).move ∈ get_legal_moves root_state root_player

/-! ## Protocol input parsing (bot026.cpp `main`, lines 539-589)

`main` reads the turn number with `std::stoi` (which throws an uncaught
exception — terminating the process before any output — when the line has no
leading integer), then parses each history line with `stringstream`
extraction.  Under C++11 a failed `>>` stores 0 in the target and sets the
stream's fail state, after which every further extraction also fails; the
replay loop performs no validation of its own. -/

/-- The whitespace set skipped by `stoi` and `operator>>`. -/
def isSpaceChar (c : Char) : Bool :=
  c == ' ' || c == '\t' || c == '\n' || c == '\r' || c == '\x0b' || c == '\x0c'

/-- Decimal digit test. -/
def isDigitChar (c : Char) : Bool := '0' ≤ c && c ≤ '9'

/-- Accumulate a run of decimal digits. -/
def readDigits : Nat → List Char → Nat × List Char
  | acc, [] => (acc, [])
  | acc, c :: cs =>
    if isDigitChar c then readDigits (acc * 10 + (c.toNat - '0'.toNat)) cs else (acc, c :: cs)

/-- The common core of `std::stoi` and `istream >> int`: skip whitespace,
read an optional sign and a non-empty digit run; `none` when no digit is
found.  (Out-of-range values are not modelled: the protocol's coordinates
are single digits.) -/
def cppExtractInt (cs : List Char) : Option (Int × List Char) :=
  match cs.dropWhile isSpaceChar with
  | '-' :: rest =>
    match rest with
    | c :: _ =>
      if isDigitChar c then
        let r := readDigits 0 rest
        some (-(r.1 : Int), r.2)
      else none
    | [] => none
  | '+' :: rest =>
    match rest with
    | c :: _ =>
      if isDigitChar c then
        let r := readDigits 0 rest
        some ((r.1 : Int), r.2)
      else none
    | [] => none
  | c :: rest =>
    if isDigitChar c then
      let r := readDigits 0 (c :: rest)
      some ((r.1 : Int), r.2)
    else none
  | [] => none

/-- `std::stoi` on a line, `none` standing for the thrown exception. -/
def stoiOpt (s : String) : Option Int := (cppExtractInt s.data).map Prod.fst

/-- A `stringstream` together with its fail state. -/
structure CppStream where
  data : List Char
  failed : Bool
deriving DecidableEq, Repr

/-- `ss >> v` under C++11: on success yield the integer, on failure yield 0
and set the fail state; every extraction from a failed stream fails. -/
def streamExtract (st : CppStream) : Int × CppStream :=
  if st.failed then (0, st)
  else
    match cppExtractInt st.data with
    | some (v, rest) => (v, ⟨rest, false⟩)
    | none => (0, ⟨st.data, true⟩)

/-- `n` consecutive extractions (`for(int k=1; k<6; ++k) ss >> c[k];`). -/
def extractN : Nat → CppStream → List Int
  | 0, _ => []
  | n + 1, st =>
    let r := streamExtract st
    r.1 :: extractN n r.2

/-- Replay of one history line (bot026.cpp lines 565-572): read the first
value (0 when the extraction fails), skip the line when it is `-1`, else
read five more values and apply the six as a move. -/
def replayLine (b : Board) (l : String) : Board :=
  let r0 := streamExtract ⟨l.data, false⟩
  if r0.1 = -1 then b
  else
    let rest := extractN 5 r0.2
    apply_move b
      ⟨r0.1, rest.getD 0 0, rest.getD 1 0, rest.getD 2 0, rest.getD 3 0, rest.getD 4 0⟩

/-- The parse-and-replay phase of bot026's `main` (lines 548-572), returning
the turn number, the engine's colour and the reconstructed board — or `none`
exactly when `main` stops before reaching the search-and-output stage (no
input line, or `stoi` throwing on the turn line).  Missing history lines
become `""` because the source never checks its `getline` results; the
source's `lines[0]` read is out-of-bounds (undefined) in C++ when `turn < 1`,
modelled here as the empty line. -/
def bot026_parse (input : List String) : Option (Int × Int × Board) :=
  match input with
  | [] => none
  | line :: _ =>
    match stoiOpt line with
    | none => none
    | some turn =>
      let count := (2 * turn - 1).toNat
      let lines := (List.range count).map fun i => input.getD (i + 1) ""
      let my_color :=
        if (streamExtract ⟨(lines.getD 0 "").data, false⟩).1 = -1 then BLACK else WHITE
      let board := lines.foldl replayLine init_board
      some (turn, my_color, board)

/-- The behaviour claim C9 asserts for malformed input.  Once `bot026_parse`
succeeds, `main` unconditionally runs the search and executes an output
statement, so the turn terminates without producing any move exactly when
the parse phase aborts. -/
def terminatesWithNoOutput (input : List String) : Prop := bot026_parse input = none

/-! ## UCB child selection (bot026.cpp `uct_select_child`, lines 234-247)

The selection formula works on floats; it is modelled here over ℝ (the
transcendental functions have no exact rational form).  A child is a
`(wins, visits)` pair; the parent passes its own visit count and the
exploration constant computed in `search` (line 419). -/

/-- The score the source computes for one child (line 240): mean with the
`1e-6` guard in both denominators, and the logarithm of the parent's visit
count *plus one* (line 237). -/
noncomputable def code_uct_score (C pv wins visits : ℝ) : ℝ :=
  wins / (visits + 1 / 1000000) +
    C * Real.sqrt (Real.log (pv + 1) / (visits + 1 / 1000000))

/-- The claim's UCB1 formula: plain mean and `ln(visits(parent))`, no
`1e-6` guards, no `+1` inside the logarithm. -/
noncomputable def claim_uct_score (C pv wins visits : ℝ) : ℝ :=
  wins / visits + C * Real.sqrt (Real.log pv / visits)

/-- The exploration constant of bot026.cpp line 419:
`0.177 * exp(-0.008 * (turn - 1.41))`. -/
noncomputable def uct_C (turn : ℝ) : ℝ := 0.177 * Real.exp (-0.008 * (turn - 1.41))

/-- The child-scan loop of `uct_select_child` (lines 239-245): running best
pointer (`none` = nullptr) and best score (initially `-1e9`), replacing on
strictly greater scores only. -/
noncomputable def uct_fold (C pv : ℝ) :
    List (ℝ × ℝ) → Nat → Option Nat × ℝ → Option Nat × ℝ
  | [], _, acc => acc
  | (w, v) :: rest, i, (b, bs) =>
    if bs < code_uct_score C pv w v then
      uct_fold C pv rest (i + 1) (some i, code_uct_score C pv w v)
    else uct_fold C pv rest (i + 1) (b, bs)

/-- `uct_select_child` (lines 234-247): index of the returned child among
the scanned child list, `none` for nullptr. -/
noncomputable def uct_select_child (C pv : ℝ) (cs : List (ℝ × ℝ)) : Option Nat :=
  (uct_fold C pv cs 0 (none, -1000000000)).1

/-- The same scan driven by the claim's formula (spec-modelled, for
comparison with `uct_select_child`). -/
noncomputable def claim_uct_fold (C pv : ℝ) :
    List (ℝ × ℝ) → Nat → Option Nat × ℝ → Option Nat × ℝ
  | [], _, acc => acc
  | (w, v) :: rest, i, (b, bs) =>
    if bs < claim_uct_score C pv w v then
      claim_uct_fold C pv rest (i + 1) (some i, claim_uct_score C pv w v)
    else claim_uct_fold C pv rest (i + 1) (b, bs)

/-- The child the claim's formula would select. -/
noncomputable def claim_select_child (C pv : ℝ) (cs : List (ℝ × ℝ)) : Option Nat :=
  (claim_uct_fold C pv cs 0 (none, -1000000000)).1

end Amazons

namespace Amazons

/-! ## Helper lemmas: list access and counting -/

theorem getD_set_self {α : Type} {l : List α} {i : Nat} (v d : α) (h : i < l.length) :
    (l.set i v).getD i d = v := by
  simp [List.getD_eq_getElem?_getD, List.getElem?_set_self', h]

theorem getD_set_ne {α : Type} {l : List α} {i j : Nat} (v d : α) (h : i ≠ j) :
    (l.set i v).getD j d = l.getD j d := by
  simp [List.getD_eq_getElem?_getD, List.getElem?_set_ne h]

theorem getD_append_left {α : Type} {l l2 : List α} {i : Nat} (d : α) (h : i < l.length) :
    (l ++ l2).getD i d = l.getD i d := by
  simp [List.getD_eq_getElem?_getD, List.getElem?_append_left h]

theorem getD_append_last {α : Type} {l : List α} (c d : α) :
    (l ++ [c]).getD l.length d = c := by
  simp [List.getD_eq_getElem?_getD, List.getElem?_append_right (le_refl l.length)]

theorem getD_of_length_le {α : Type} {l : List α} {i : Nat} (d : α) (h : l.length ≤ i) :
    l.getD i d = d := by
  simp [List.getD_eq_getElem?_getD, List.getElem?_eq_none h]

theorem countP_set (P : Int → Bool) (v : Int) :
    ∀ (l : List Int) (i : Nat), i < l.length →
      (l.set i v).countP P + (if P (l.getD i EMPTY) then 1 else 0) =
        l.countP P + (if P v then 1 else 0)
  | [], i, h => by simp at h
  | a :: l, 0, _ => by
    simp [List.countP_cons, List.getD]
    omega
  | a :: l, i + 1, h => by
    have ih := countP_set P v l i (by simpa using h)
    simp only [List.set, List.countP_cons, List.getD_cons_succ]
    omega

/-! ## Helper lemmas: ray-cast characterisation -/

theorem mem_slideEmpty {g : Board} {dx dy : Int} :
    ∀ {fuel : Nat} {x y : Int} {c : Int × Int}, c ∈ slideEmpty g x y dx dy fuel →
      ∃ k : Nat, 1 ≤ k ∧ c.1 = x + k * dx ∧ c.2 = y + k * dy ∧
        inB c.1 c.2 ∧ cellAt g c.1 c.2 = EMPTY := by
  intro fuel
  induction fuel with
  | zero => intro x y c h; simp [slideEmpty] at h
  | succ n ih =>
    intro x y c h
    rw [slideEmpty] at h
    split at h
    · rename_i hcond
      rcases List.mem_cons.1 h with rfl | htail
      · exact ⟨1, le_refl 1, by push_cast; ring, by push_cast; ring, hcond.1, hcond.2⟩
      · obtain ⟨k, hk, h1, h2, h3, h4⟩ := ih htail
        exact ⟨k + 1, by omega, by rw [h1]; push_cast; ring, by rw [h2]; push_cast; ring, h3, h4⟩
    · simp at h

theorem mem_slideShot {g : Board} {p : Nat} {dx dy : Int} :
    ∀ {fuel : Nat} {x y : Int} {c : Int × Int}, c ∈ slideShot g p x y dx dy fuel →
      ∃ k : Nat, 1 ≤ k ∧ c.1 = x + k * dx ∧ c.2 = y + k * dy ∧
        inB c.1 c.2 ∧ (cellAt g c.1 c.2 = EMPTY ∨ idxI c.1 c.2 = p) := by
  intro fuel
  induction fuel with
  | zero => intro x y c h; simp [slideShot] at h
  | succ n ih =>
    intro x y c h
    rw [slideShot] at h
    split at h
    · rename_i hcond
      rcases List.mem_cons.1 h with rfl | htail
      · exact ⟨1, le_refl 1, by push_cast; ring, by push_cast; ring, hcond.1, hcond.2⟩
      · obtain ⟨k, hk, h1, h2, h3, h4⟩ := ih htail
        exact ⟨k + 1, by omega, by rw [h1]; push_cast; ring, by rw [h2]; push_cast; ring, h3, h4⟩
    · simp at h

theorem idxI_lt_of_inB {x y : Int} (h : inB x y) : idxI x y < 64 := by
  obtain ⟨h1, h2, h3, h4⟩ := h; unfold idxI; omega

theorem idxI_inj {x y x' y' : Int} (h : inB x y) (h' : inB x' y')
    (he : idxI x y = idxI x' y') : x = x' ∧ y = y' := by
  obtain ⟨a1, a2, a3, a4⟩ := h; obtain ⟨b1, b2, b3, b4⟩ := h'
  unfold idxI at he; omega

theorem inB_div_mod {p : Nat} (h : p < 64) : inB ((p : Int) / 8) ((p : Int) % 8) := by
  unfold inB; omega

theorem idxI_div_mod {p : Nat} (h : p < 64) : idxI ((p : Int) / 8) ((p : Int) % 8) = p := by
  unfold idxI; omega

theorem DIRECTIONS_ne_zero : ∀ d ∈ DIRECTIONS, ¬(d.1 = 0 ∧ d.2 = 0) := by decide

/-- Soundness half of the move-generator characterisation: every emitted move
comes from a piece cell `p` of the moving colour, a movement ray and a shot
ray. -/
theorem mem_get_legal_moves {g : Board} {c : Int} {m : Move}
    (hm : m ∈ get_legal_moves g c) :
    ∃ p : Nat, p < 64 ∧ g.getD p EMPTY = c ∧
      m.x0 = (p : Int) / 8 ∧ m.y0 = (p : Int) % 8 ∧
      ∃ d ∈ DIRECTIONS, ∃ kt : Nat, 1 ≤ kt ∧
        m.x1 = m.x0 + kt * d.1 ∧ m.y1 = m.y0 + kt * d.2 ∧
        inB m.x1 m.y1 ∧ cellAt g m.x1 m.y1 = EMPTY ∧
      ∃ a ∈ DIRECTIONS, ∃ ks : Nat, 1 ≤ ks ∧
        m.x2 = m.x1 + ks * a.1 ∧ m.y2 = m.y1 + ks * a.2 ∧
        inB m.x2 m.y2 ∧ (cellAt g m.x2 m.y2 = EMPTY ∨ idxI m.x2 m.y2 = p) := by
  unfold get_legal_moves at hm
  obtain ⟨p, hp, hmem⟩ := List.mem_flatMap.1 hm
  have hp64 : p < 64 := List.mem_range.1 hp
  by_cases hcol : g.getD p EMPTY = c
  · rw [if_pos hcol] at hmem
    obtain ⟨d, hd, hmem⟩ := List.mem_flatMap.1 hmem
    obtain ⟨t, ht, hmem⟩ := List.mem_flatMap.1 hmem
    obtain ⟨a, ha, hmem⟩ := List.mem_flatMap.1 hmem
    obtain ⟨s, hs, hmeq⟩ := List.mem_map.1 hmem
    obtain ⟨kt, hkt, ht1, ht2, ht3, ht4⟩ := mem_slideEmpty ht
    obtain ⟨ks, hks, hs1, hs2, hs3, hs4⟩ := mem_slideShot hs
    subst hmeq
    exact ⟨p, hp64, hcol, rfl, rfl, d, hd, kt, hkt, ht1, ht2, ht3, ht4,
      a, ha, ks, hks, hs1, hs2, hs3, hs4⟩
  · rw [if_neg hcol] at hmem
    simp at hmem

/-- The three `set`s of `apply_move` leave both piece counts unchanged when the
source holds a piece, the destination is Empty, and the obstacle cell is Empty
or the source itself. -/
theorem countCells_apply_aux {g : Board} {p t s : Nat} {c : Int}
    (hp : p < g.length) (ht : t < g.length) (hs : s < g.length)
    (hpt : p ≠ t) (hts : t ≠ s)
    (hgp : g.getD p EMPTY = c) (hgt : g.getD t EMPTY = EMPTY)
    (hgs : g.getD s EMPTY = EMPTY ∨ s = p) (v : Int) (hv0 : v ≠ EMPTY) (hv2 : v ≠ OBSTACLE) :
    countCells (((g.set p EMPTY).set t c).set s OBSTACLE) v = countCells g v := by
  have l1 : ((g.set p EMPTY).set t c).length = g.length := by simp
  have l0 : (g.set p EMPTY).length = g.length := by simp
  have e1 := countP_set (fun x => x == v) EMPTY g p hp
  have e2 := countP_set (fun x => x == v) c (g.set p EMPTY) t (l0 ▸ ht)
  have e3 := countP_set (fun x => x == v) OBSTACLE ((g.set p EMPTY).set t c) s (l1 ▸ hs)
  rw [hgp] at e1
  rw [getD_set_ne _ _ hpt, hgt] at e2
  have hsval : ((g.set p EMPTY).set t c).getD s EMPTY = EMPTY := by
    rw [getD_set_ne _ _ hts]
    rcases hgs with h | rfl
    · rcases eq_or_ne p s with rfl | hps
      · exact getD_set_self _ _ hp
      · rw [getD_set_ne _ _ hps]; exact h
    · exact getD_set_self _ _ hp
  rw [hsval] at e3
  simp only [beq_iff_eq] at e1 e2 e3
  rw [if_neg (show ¬(EMPTY = v) from fun h => hv0 h.symm)] at e1 e2 e3
  rw [if_neg (show ¬(OBSTACLE = v) from fun h => hv2 h.symm)] at e3
  unfold countCells
  by_cases hcv : c = v
  · rw [if_pos hcv] at e1 e2; omega
  · rw [if_neg hcv] at e1 e2; omega

/--
C1.  Every move produced by `get_legal_moves`, when applied with
`apply_move`, performs exactly the three-cell transformation: the (unique)
source cell of the mover's colour becomes Empty, one Empty cell becomes the
mover's piece, and one cell that is Empty at obstacle-placement time (the
destination-relative board, which makes the vacated source an allowed target)
becomes Obstacle; no other cell changes, previously placed Obstacles are
untouched, and both sides' piece counts are preserved.
-/
theorem claim_C1 (g : Board) (hg : g.length = 64) (c : Int) (hc : c = BLACK ∨ c = WHITE)
    (m : Move) (hm : m ∈ get_legal_moves g c) : MoveEffectOK g c m := by
  obtain ⟨p, hp64, hcol, hx0, hy0, d, hd, kt, hkt, ht1, ht2, ht3, ht4,
    a, ha, ks, hks, hs1, hs2, hs3, hs4⟩ := mem_get_legal_moves hm
  have hpB : inB m.x0 m.y0 := by rw [hx0, hy0]; exact inB_div_mod hp64
  have hpidx : idxI m.x0 m.y0 = p := by rw [hx0, hy0]; exact idxI_div_mod hp64
  have hdnz := DIRECTIONS_ne_zero d hd
  have hanz := DIRECTIONS_ne_zero a ha
  -- destination differs from source, obstacle cell differs from destination
  have hPT : idxI m.x0 m.y0 ≠ idxI m.x1 m.y1 := by
    intro he
    obtain ⟨hex, hey⟩ := idxI_inj hpB ht3 he
    rcases (not_and_or.1 hdnz) with h | h
    · have : (kt : Int) * d.1 ≠ 0 := mul_ne_zero (by exact_mod_cast Nat.one_le_iff_ne_zero.1 hkt) h
      omega
    · have : (kt : Int) * d.2 ≠ 0 := mul_ne_zero (by exact_mod_cast Nat.one_le_iff_ne_zero.1 hkt) h
      omega
  have hTS : idxI m.x1 m.y1 ≠ idxI m.x2 m.y2 := by
    intro he
    obtain ⟨hex, hey⟩ := idxI_inj ht3 hs3 he
    rcases (not_and_or.1 hanz) with h | h
    · have : (ks : Int) * a.1 ≠ 0 := mul_ne_zero (by exact_mod_cast Nat.one_le_iff_ne_zero.1 hks) h
      omega
    · have : (ks : Int) * a.2 ≠ 0 := mul_ne_zero (by exact_mod_cast Nat.one_le_iff_ne_zero.1 hks) h
      omega
  have hgp : g.getD (idxI m.x0 m.y0) EMPTY = c := by rw [hpidx]; exact hcol
  have hgt : g.getD (idxI m.x1 m.y1) EMPTY = EMPTY := ht4
  have hgs : g.getD (idxI m.x2 m.y2) EMPTY = EMPTY ∨ idxI m.x2 m.y2 = idxI m.x0 m.y0 := by
    rcases hs4 with h | h
    · exact Or.inl h
    · exact Or.inr (by rw [h, hpidx])
  have hpl : idxI m.x0 m.y0 < 64 := idxI_lt_of_inB hpB
  have htl : idxI m.x1 m.y1 < 64 := idxI_lt_of_inB ht3
  have hsl : idxI m.x2 m.y2 < 64 := idxI_lt_of_inB hs3
  have happ : apply_move g m =
      ((g.set (idxI m.x0 m.y0) EMPTY).set (idxI m.x1 m.y1) c).set (idxI m.x2 m.y2) OBSTACLE := by
    simp only [apply_move]; rw [hgp]
  have hc0 : c ≠ EMPTY := by rcases hc with rfl | rfl <;> decide
  have hc2 : c ≠ OBSTACLE := by rcases hc with rfl | rfl <;> decide
  refine ⟨hgp, hpl, htl, hsl, hPT, hTS, hgt, hgs, ?_, ?_, ?_, happ, ?_, ?_, ?_, ?_⟩
  · exact getD_set_self _ _ (by omega)
  · exact getD_set_self _ _ (by simpa [hg] using htl)
  · rw [getD_set_ne _ _ hTS]
    rcases hgs with h | he
    · rcases eq_or_ne (idxI m.x0 m.y0) (idxI m.x2 m.y2) with he | hne
      · rw [← he]; exact getD_set_self _ _ (by omega)
      · rw [getD_set_ne _ _ hne]; exact h
    · rw [he]; exact getD_set_self _ _ (by omega)
  · -- previously placed obstacles never change
    intro i hi
    have hip : i ≠ idxI m.x0 m.y0 := by intro he; rw [he, hgp] at hi; exact hc2 hi
    have hit : i ≠ idxI m.x1 m.y1 := by intro he; rw [he, hgt] at hi; exact absurd hi (by decide)
    rw [happ]
    rcases eq_or_ne i (idxI m.x2 m.y2) with rfl | his
    · exact getD_set_self _ _ (by simpa [hg] using hsl)
    · rw [getD_set_ne _ _ (Ne.symm his), getD_set_ne _ _ (Ne.symm hit),
        getD_set_ne _ _ (Ne.symm hip)]
      exact hi
  · -- cells other than the three move cells are unchanged
    intro i hip hit his
    rw [happ, getD_set_ne _ _ (Ne.symm his), getD_set_ne _ _ (Ne.symm hit),
      getD_set_ne _ _ (Ne.symm hip)]
  · rw [happ]
    exact countCells_apply_aux (by omega) (by omega) (by omega) hPT hTS hgp hgt
      (by rcases hgs with h | h; exact Or.inl h; exact Or.inr h) BLACK (by decide) (by decide)
  · rw [happ]
    exact countCells_apply_aux (by omega) (by omega) (by omega) hPT hTS hgp hgt
      (by rcases hgs with h | h; exact Or.inl h; exact Or.inr h) WHITE (by decide) (by decide)

/-! ## Evaluator lemmas: antisymmetry (C6) and mobility (C5) -/

theorem sum_map_neg (l : List Nat) (f : Nat → ℚ) :
    (l.map fun i => -(f i)).sum = -((l.map f).sum) := by
  induction l with
  | nil => simp
  | cons a l ih => simp [ih]; ring

theorem territoryCell_antisym (a b : Nat) : territoryCell b a = -territoryCell a b := by
  unfold territoryCell
  rcases lt_trichotomy a b with h | rfl | h
  · rw [if_neg (show ¬b < a by omega), if_pos h, if_pos h]
  · simp
  · rw [if_pos h, if_neg (show ¬a < b by omega), if_pos h, neg_neg]

theorem ktCell_antisym (a b : Nat) : ktCell b a = -ktCell a b := by
  unfold ktCell
  rcases lt_trichotomy a b with h | rfl | h
  · rw [if_neg (show ¬b < a by omega), if_pos h, if_pos h]
  · simp
  · rw [if_pos h, if_neg (show ¬a < b by omega), if_pos h, neg_neg]

theorem qpCell_antisym (a b : Nat) : qpCell b a = -qpCell a b := by
  unfold qpCell; ring

theorem kpCell_antisym (a b : Nat) : kpCell b a = -kpCell a b := by
  unfold kpCell; ring

theorem cellGuard_antisym (g : Board) (i : Nat) (a b : Nat) (f : Nat → Nat → ℚ)
    (hf : ∀ x y, f y x = -f x y) : cellGuard g i b a f = -cellGuard g i a b f := by
  unfold cellGuard
  by_cases h1 : g.getD i EMPTY = EMPTY
  · rw [if_pos h1, if_pos h1]
    by_cases h2 : a = 99 ∧ b = 99
    · rw [if_pos ⟨h2.2, h2.1⟩, if_pos h2]; ring
    · rw [if_neg (fun h => h2 ⟨h.2, h.1⟩), if_neg h2, hf]
  · rw [if_neg h1, if_neg h1]; ring

theorem evalScores_component_swap (g : Board) (player : Int) (f : Nat → Nat → ℚ)
    (hf : ∀ x y, f y x = -f x y) :
    ((List.range 64).map fun i =>
        cellGuard g i ((run_bfs g (piecesOf g (-player))).getD i 99)
          ((run_bfs g (piecesOf g player)).getD i 99) f).sum =
      -((List.range 64).map fun i =>
        cellGuard g i ((run_bfs g (piecesOf g player)).getD i 99)
          ((run_bfs g (piecesOf g (-player))).getD i 99) f).sum := by
  rw [← sum_map_neg]
  exact congrArg List.sum (List.map_congr_left fun i _ => cellGuard_antisym g i _ _ f hf)

/--
C6.  Each of the evaluator's five raw components, computed before the
sigmoid, is antisymmetric under exchanging the roles of self and opponent:
evaluating the same board for the opposite player negates every component.
(The `dist_my`/`dist_op` fields swap wholesale because the per-colour piece
collection is deterministic, so the two `run_bfs` calls of the swapped
evaluation are literally the two calls of the original one, exchanged.)
-/
theorem claim_C6 (g : Board) (player : Int) :
    (evalScores g (-player)).qt = -(evalScores g player).qt ∧
    (evalScores g (-player)).kt = -(evalScores g player).kt ∧
    (evalScores g (-player)).qp = -(evalScores g player).qp ∧
    (evalScores g (-player)).kp = -(evalScores g player).kp ∧
    (evalScores g (-player)).mob = -(evalScores g player).mob := by
  simp only [evalScores, neg_neg]
  refine ⟨?_, ?_, ?_, ?_, by ring⟩
  · exact evalScores_component_swap g player territoryCell territoryCell_antisym
  · exact evalScores_component_swap g player ktCell ktCell_antisym
  · exact evalScores_component_swap g player qpCell qpCell_antisym
  · exact evalScores_component_swap g player kpCell kpCell_antisym

theorem ray_count_eq_length (g : Board) (dx dy : Int) :
    ∀ (fuel : Nat) (x y : Int),
      ray_count g x y dx dy fuel = (slideEmpty g x y dx dy fuel).length := by
  intro fuel
  induction fuel with
  | zero => intro x y; rfl
  | succ n ih =>
    intro x y
    rw [ray_count, slideEmpty]
    simp only [cellAt]
    by_cases h : inB (x + dx) (y + dy) ∧ List.getD g (idxI (x + dx) (y + dy)) EMPTY = EMPTY
    · rw [if_pos h, if_pos h, List.length_cons, ih]
      omega
    · rw [if_neg h, if_neg h]
      rfl

/-- Complete characterisation of the movement-phase ray: a cell is collected
iff it lies `k` steps out (`1 ≤ k ≤ fuel`) and every step up to it is an
in-bounds Empty cell. -/
theorem mem_slideEmpty_iff (g : Board) (dx dy : Int) :
    ∀ (fuel : Nat) (x y : Int) (c : Int × Int),
      c ∈ slideEmpty g x y dx dy fuel ↔
        ∃ k : Nat, 1 ≤ k ∧ k ≤ fuel ∧ c.1 = x + k * dx ∧ c.2 = y + k * dy ∧
          ∀ j : Nat, 1 ≤ j → j ≤ k →
            inB (x + j * dx) (y + j * dy) ∧ cellAt g (x + j * dx) (y + j * dy) = EMPTY := by
  intro fuel
  induction fuel with
  | zero =>
    intro x y c
    simp only [slideEmpty, List.not_mem_nil, false_iff]
    rintro ⟨k, hk1, hkn, -⟩
    omega
  | succ n ih =>
    intro x y c
    rw [slideEmpty]
    by_cases hc : inB (x + dx) (y + dy) ∧ cellAt g (x + dx) (y + dy) = EMPTY
    · rw [if_pos hc, List.mem_cons, ih]
      constructor
      · rintro (rfl | ⟨k, hk1, hkn, h1, h2, hall⟩)
        · refine ⟨1, le_refl 1, by omega, by push_cast; ring, by push_cast; ring, ?_⟩
          intro j hj1 hj2
          have hj : j = 1 := by omega
          subst hj
          simpa using hc
        · refine ⟨k + 1, by omega, by omega, by rw [h1]; push_cast; ring,
            by rw [h2]; push_cast; ring, ?_⟩
          intro j hj1 hj2
          rcases eq_or_lt_of_le hj1 with he | hlt
          · have hj : j = 1 := he.symm
            subst hj
            simpa using hc
          · have hstep := hall (j - 1) (by omega) (by omega)
            have hcast : ((j - 1 : Nat) : Int) = (j : Int) - 1 := by omega
            have e1 : x + dx + ((j - 1 : Nat) : Int) * dx = x + (j : Int) * dx := by
              rw [hcast]; ring
            have e2 : y + dy + ((j - 1 : Nat) : Int) * dy = y + (j : Int) * dy := by
              rw [hcast]; ring
            rw [e1, e2] at hstep
            exact hstep
      · rintro ⟨k, hk1, hkn, h1, h2, hall⟩
        obtain ⟨c1, c2⟩ := c
        simp only at h1 h2
        rcases eq_or_lt_of_le hk1 with he | hlt
        · left
          have hk : k = 1 := he.symm
          subst hk
          simp only [Nat.cast_one, one_mul] at h1 h2
          rw [Prod.mk.injEq]
          exact ⟨h1, h2⟩
        · right
          refine ⟨k - 1, by omega, by omega, ?_, ?_, ?_⟩
          · have hcast : ((k - 1 : Nat) : Int) = (k : Int) - 1 := by omega
            rw [h1, hcast]; ring
          · have hcast : ((k - 1 : Nat) : Int) = (k : Int) - 1 := by omega
            rw [h2, hcast]; ring
          · intro j hj1 hj2
            have hstep := hall (j + 1) (by omega) (by omega)
            have e1 : x + ((j + 1 : Nat) : Int) * dx = x + dx + (j : Int) * dx := by
              push_cast; ring
            have e2 : y + ((j + 1 : Nat) : Int) * dy = y + dy + (j : Int) * dy := by
              push_cast; ring
            rw [e1, e2] at hstep
            exact hstep
    · rw [if_neg hc]
      simp only [List.not_mem_nil, false_iff]
      rintro ⟨k, hk1, hkn, h1, h2, hall⟩
      have := hall 1 (le_refl 1) hk1
      simp only [Nat.cast_one, one_mul] at this
      exact hc this

theorem nodup_slideEmpty (g : Board) {dx dy : Int} (hd : ¬(dx = 0 ∧ dy = 0)) :
    ∀ (fuel : Nat) (x y : Int), (slideEmpty g x y dx dy fuel).Nodup := by
  intro fuel
  induction fuel with
  | zero => intro x y; simp [slideEmpty]
  | succ n ih =>
    intro x y
    rw [slideEmpty]
    split
    · refine List.Nodup.cons ?_ (ih _ _)
      intro hmem
      obtain ⟨k, hk, h1, h2, -⟩ := mem_slideEmpty hmem
      simp only at h1 h2
      rcases not_and_or.1 hd with h | h
      · have : (k : Int) * dx ≠ 0 :=
          mul_ne_zero (by exact_mod_cast Nat.one_le_iff_ne_zero.1 hk) h
        omega
      · have : (k : Int) * dy ≠ 0 :=
          mul_ne_zero (by exact_mod_cast Nat.one_le_iff_ne_zero.1 hk) h
        omega
    · exact List.nodup_nil

/-- Two distinct ray directions never produce the same offset. -/
theorem DIRECTIONS_ray_inj :
    ∀ d ∈ DIRECTIONS, ∀ d' ∈ DIRECTIONS, ∀ k k' : Nat, 1 ≤ k → 1 ≤ k' →
      (k : Int) * d.1 = (k' : Int) * d'.1 → (k : Int) * d.2 = (k' : Int) * d'.2 → d = d' := by
  intro d hd d' hd' k k' hk hk' h1 h2
  fin_cases hd <;> fin_cases hd' <;> first | rfl | (exfalso; omega)

/-- The queen-reachable cells of a board piece, as the index image of the 8
rays. -/
theorem pieceRays_perm (g : Board) (p : Nat) (hp : p < 64) :
    ((DIRECTIONS.flatMap fun d =>
        slideEmpty g ((p : Int) / 8) ((p : Int) % 8) d.1 d.2 8).map fun c => idxI c.1 c.2).Perm
      ((List.range 64).filter fun e => decide (qreach g p e)) := by
  have hflat : (DIRECTIONS.flatMap fun d =>
      slideEmpty g ((p : Int) / 8) ((p : Int) % 8) d.1 d.2 8).Nodup := by
    rw [List.nodup_flatMap]
    constructor
    · intro d hd
      exact nodup_slideEmpty g (fun h => DIRECTIONS_ne_zero d hd ⟨h.1, h.2⟩) 8 _ _
    · refine List.Nodup.pairwise_of_forall_ne (by decide) ?_
      intro d hd d' hd' hne
      intro c hcd hcd'
      obtain ⟨k, hk, h1, h2, -⟩ := mem_slideEmpty hcd
      obtain ⟨k', hk', h1', h2', -⟩ := mem_slideEmpty hcd'
      exact absurd (DIRECTIONS_ray_inj d hd d' hd' k k' hk hk'
        (by omega) (by omega)) hne
  have hinj : ∀ c ∈ (DIRECTIONS.flatMap fun d =>
        slideEmpty g ((p : Int) / 8) ((p : Int) % 8) d.1 d.2 8),
      ∀ c' ∈ (DIRECTIONS.flatMap fun d =>
        slideEmpty g ((p : Int) / 8) ((p : Int) % 8) d.1 d.2 8),
        idxI c.1 c.2 = idxI c'.1 c'.2 → c = c' := by
    intro c hc c' hc'
    obtain ⟨d, hd, hcd⟩ := List.mem_flatMap.1 hc
    obtain ⟨d', hd', hcd'⟩ := List.mem_flatMap.1 hc'
    obtain ⟨-, -, -, -, hB, -⟩ := mem_slideEmpty hcd
    obtain ⟨-, -, -, -, hB', -⟩ := mem_slideEmpty hcd'
    intro he
    obtain ⟨e1, e2⟩ := idxI_inj hB hB' he
    exact Prod.ext e1 e2
  refine (List.perm_ext_iff_of_nodup ((List.nodup_map_iff_inj_on hflat).mpr hinj)
    ((List.nodup_range 64).filter _)).mpr ?_
  intro e
  simp only [List.mem_map, List.mem_flatMap, List.mem_filter, List.mem_range,
    decide_eq_true_eq]
  constructor
  · rintro ⟨c, ⟨d, hd, hcd⟩, rfl⟩
    obtain ⟨k, hk1, hk8, h1, h2, hall⟩ :=
      (mem_slideEmpty_iff g d.1 d.2 8 ((p : Int) / 8) ((p : Int) % 8) c).1 hcd
    have hB := (hall k hk1 (le_refl k)).1
    have hk7 : k < 8 := by
      obtain ⟨b1, b2, b3, b4⟩ := hB
      fin_cases hd <;> simp only at b1 b2 b3 b4 <;> omega
    have hBc : inB c.1 c.2 := by rw [h1, h2]; exact hB
    refine ⟨idxI_lt_of_inB hBc, d, hd, k, List.mem_range.2 hk7, hk1, ?_, by rw [h1, h2]⟩
    intro j hjr hj1
    exact hall j hj1 (by have := List.mem_range.1 hjr; omega)
  · rintro ⟨he64, d, hd, k, hkr, hk1, hall, rfl⟩
    have hk8 : k ≤ 8 := by have := List.mem_range.1 hkr; omega
    refine ⟨((p : Int) / 8 + k * d.1, (p : Int) % 8 + k * d.2), ⟨d, hd, ?_⟩, rfl⟩
    rw [mem_slideEmpty_iff]
    refine ⟨k, hk1, hk8, rfl, rfl, ?_⟩
    intro j hj1 hjk
    exact hall j (List.mem_range.2 (by omega)) hj1

/-- The 8-direction ray sum of one piece equals its queen-reach count. -/
theorem pieceReachCount_eq_raySum (g : Board) (p : Nat) (hp : p < 64) :
    (DIRECTIONS.map fun dir =>
      ray_count g ((p : Int) / 8) ((p : Int) % 8) dir.1 dir.2 8).sum = pieceReachCount g p := by
  have hlen := (pieceRays_perm g p hp).length_eq
  rw [List.length_map, List.length_flatMap] at hlen
  unfold pieceReachCount
  rw [← hlen]
  congr 1
  refine List.map_congr_left fun d _ => ?_
  simp [ray_count_eq_length, Function.comp]

theorem foldl_dir_sum (g : Board) (px py : Int) (mob : Nat) :
    DIRECTIONS.foldl (fun mob2 dir => mob2 + ray_count g px py dir.1 dir.2 8) mob =
      mob + (DIRECTIONS.map fun dir => ray_count g px py dir.1 dir.2 8).sum := by
  generalize DIRECTIONS = l
  induction l generalizing mob with
  | nil => simp
  | cons d l ih => simp [ih, Nat.add_assoc]

theorem calc_mobility_foldl (g : Board) :
    ∀ (ps : List Nat) (a : Nat),
      ps.foldl
        (fun mob (p : Nat) =>
          DIRECTIONS.foldl
            (fun mob2 dir => mob2 + ray_count g ((p : Int) / 8) ((p : Int) % 8) dir.1 dir.2 8)
            mob) a =
        a + (ps.map fun (p : Nat) => (DIRECTIONS.map fun dir =>
          ray_count g ((p : Int) / 8) ((p : Int) % 8) dir.1 dir.2 8).sum).sum := by
  intro ps
  induction ps with
  | nil => intro a; simp
  | cons p ps ih =>
    intro a
    simp only [List.foldl_cons, List.map_cons, List.sum_cons]
    rw [foldl_dir_sum, ih]
    omega

/-- The source's `calc_mobility` counts exactly the queen-reachable cells of
each listed board piece (no deduplication across pieces). -/
theorem calc_mobility_eq_reach (g : Board) (ps : List Nat) (hps : ∀ p ∈ ps, p < 64) :
    calc_mobility g ps = (ps.map fun p => pieceReachCount g p).sum := by
  unfold calc_mobility
  rw [calc_mobility_foldl]
  simp only [Nat.zero_add]
  exact congrArg List.sum
    (List.map_congr_left fun p hp => pieceReachCount_eq_raySum g p (hps p hp))

theorem piecesOf_lt (g : Board) (c : Int) : ∀ p ∈ piecesOf g c, p < 64 := by
  intro p hp
  exact List.mem_range.1 (List.mem_of_mem_filter hp)

/--
C5 (amended).  The evaluator's Mobility component is the *full-ray* (queen)
count: for each side, the number of (piece, cell) pairs such that the cell is
reachable from the piece by an unobstructed straight or diagonal slide of any
length (summed over pieces without deduplication), self minus opponent — not
the single-step count of the claim.
-/
theorem claim_C5_amended (g : Board) (player : Int) :
    (evalScores g player).mob =
      ((((piecesOf g player).map fun p => pieceReachCount g p).sum : ℤ) : ℚ) -
        ((((piecesOf g (-player)).map fun p => pieceReachCount g p).sum : ℤ) : ℚ) := by
  simp only [evalScores]
  rw [calc_mobility_eq_reach g _ (piecesOf_lt g player),
    calc_mobility_eq_reach g _ (piecesOf_lt g (-player))]

/-- Counterexample to C5 as stated: on `gC5` the evaluator's Mobility
component is `55 - 0` (full queen-ray counts), while the claimed
single-step count ("each piece contributes at most 8") gives `12 - 0`. -/
theorem claim_C5_counterexample :
    (evalScores gC5 BLACK).mob ≠
      ((claimKingMobility gC5 (piecesOf gC5 BLACK) : ℤ) : ℚ) -
        ((claimKingMobility gC5 (piecesOf gC5 (-BLACK)) : ℤ) : ℚ) := by
  have h1 : calc_mobility gC5 (piecesOf gC5 BLACK) = 55 := by decide
  have h2 : calc_mobility gC5 (piecesOf gC5 (-BLACK)) = 0 := by decide
  have h3 : claimKingMobility gC5 (piecesOf gC5 BLACK) = 12 := by decide
  have h4 : claimKingMobility gC5 (piecesOf gC5 (-BLACK)) = 0 := by decide
  simp only [evalScores, h1, h2, h3, h4]
  norm_num

/-! ## Search-state machinery: frame and invariant lemmas -/

theorem node_default_of_le {st : SState} {i : Nat} (h : st.nodes.length ≤ i) :
    st.node i = default := getD_of_length_le _ h

theorem node_set {st : SState} {j : Nat} {n' : SNode} {mp : List Move} {r : Nat}
    {bc : Option Nat} {mv : Int} (a : Nat) :
    (SState.mk (st.nodes.set j n') mp r bc mv).node a =
      if a = j ∧ j < st.nodes.length then n' else st.node a := by
  by_cases ha : a = j
  · subst ha
    by_cases hj : a < st.nodes.length
    · have hcond : a = a ∧ a < st.nodes.length := ⟨rfl, hj⟩
      rw [if_pos hcond]
      exact getD_set_self _ _ hj
    · rw [if_neg (fun h => hj h.2)]
      show (st.nodes.set a n').getD a default = st.node a
      rw [List.set_eq_of_length_le (by omega)]
      rfl
  · rw [if_neg (fun h => ha h.1)]
    exact getD_set_ne _ _ (fun h => ha h.symm)

theorem backstep_node (rp : Int) (wp : ℚ) (st : SState) (j a : Nat) :
    (backstep rp wp st j).node a =
      if a = j ∧ j < st.nodes.length then
        { st.node j with
          visits := (st.node j).visits + 1
          wins := (st.node j).wins +
            (if (st.node j).player_just_moved = rp then wp else 1 - wp) }
      else st.node a :=
  node_set a

theorem backstep_len (rp : Int) (wp : ℚ) (st : SState) (j : Nat) :
    (backstep rp wp st j).nodes.length = st.nodes.length := by
  simp [backstep]

theorem backstep_pool (rp : Int) (wp : ℚ) (st : SState) (j : Nat) :
    (backstep rp wp st j).move_pool = st.move_pool := rfl

theorem backstep_best (rp : Int) (wp : ℚ) (st : SState) (j : Nat) :
    (backstep rp wp st j).best_child =
      if (st.node j).parent = some 0 ∧ st.max_visits < (((st.node j).visits + 1 : Nat) : Int)
      then some j else st.best_child := rfl

theorem backstep_max (rp : Int) (wp : ℚ) (st : SState) (j : Nat) :
    (backstep rp wp st j).max_visits =
      if (st.node j).parent = some 0 ∧ st.max_visits < (((st.node j).visits + 1 : Nat) : Int)
      then (((st.node j).visits + 1 : Nat) : Int) else st.max_visits := rfl

theorem backprop_none (rp : Int) (wp : ℚ) :
    ∀ (fuel : Nat) (st : SState), backprop rp wp fuel none st = st
  | 0, _ => rfl
  | _ + 1, _ => rfl

/-- Backpropagation only touches visit/win counters and the best-child
tracking: lengths, the move pool and every structural node field are
unchanged. -/
theorem backprop_preserve (rp : Int) (wp : ℚ) :
    ∀ (fuel : Nat) (cur : Option Nat) (st : SState),
      (backprop rp wp fuel cur st).nodes.length = st.nodes.length ∧
      (backprop rp wp fuel cur st).move_pool = st.move_pool ∧
      ∀ a : Nat,
        ((backprop rp wp fuel cur st).node a).parent = (st.node a).parent ∧
        ((backprop rp wp fuel cur st).node a).first_child = (st.node a).first_child ∧
        ((backprop rp wp fuel cur st).node a).moves_start = (st.node a).moves_start ∧
        ((backprop rp wp fuel cur st).node a).moves_count = (st.node a).moves_count ∧
        ((backprop rp wp fuel cur st).node a).move = (st.node a).move := by
  intro fuel
  induction fuel with
  | zero => intro cur st; exact ⟨rfl, rfl, fun a => ⟨rfl, rfl, rfl, rfl, rfl⟩⟩
  | succ m ih =>
    intro cur st
    match cur with
    | none => exact ⟨rfl, rfl, fun a => ⟨rfl, rfl, rfl, rfl, rfl⟩⟩
    | some j =>
      rw [backprop]
      obtain ⟨hlen, hpool, hnode⟩ := ih (st.node j).parent (backstep rp wp st j)
      refine ⟨by rw [hlen, backstep_len], by rw [hpool, backstep_pool], fun a => ?_⟩
      obtain ⟨h1, h2, h3, h4, h5⟩ := hnode a
      rw [h1, h2, h3, h4, h5, backstep_node]
      by_cases ha : a = j ∧ j < st.nodes.length
      · rw [if_pos ha]
        obtain ⟨rfl, -⟩ := ha
        exact ⟨rfl, rfl, rfl, rfl, rfl⟩
      · rw [if_neg ha]
        exact ⟨rfl, rfl, rfl, rfl, rfl⟩

theorem bestInvGen_of_inv {st : SState} (hcv : ChildVisits st) (hbi : BestInv st)
    (cur : Option Nat) : BestInvGen st cur := by
  refine ⟨fun c hc hp => Or.inl (hcv c hc hp), ?_⟩
  rcases hbi with ⟨h1, h2, h3⟩ | ⟨b, hb1, hb2, hb3, hb4, hb5⟩
  · exact Or.inl ⟨h1, h2, fun c hc hp => absurd hp (h3 c hc)⟩
  · exact Or.inr ⟨b, hb1, hb2, hb3, hb4, hcv b hb1 hb3, hb5⟩

theorem bestInvGen_none {st : SState} (h : BestInvGen st none) :
    ChildVisits st ∧ BestInv st := by
  obtain ⟨h1, h2⟩ := h
  constructor
  · intro c hc hp
    rcases h1 c hc hp with h | h
    · exact h
    · exact absurd h (by simp)
  · rcases h2 with ⟨g1, g2, g3⟩ | ⟨b, hb1, hb2, hb3, hb4, hb5, hb6⟩
    · exact Or.inl ⟨g1, g2, fun c hc hp => by
        have := g3 c hc hp
        simp at this⟩
    · exact Or.inr ⟨b, hb1, hb2, hb3, hb4, hb6⟩

theorem bestInvGen_oob {st : SState} {c0 : Nat} (hc0 : st.nodes.length ≤ c0)
    (h : BestInvGen st (some c0)) : ChildVisits st ∧ BestInv st := by
  obtain ⟨h1, h2⟩ := h
  constructor
  · intro c hc hp
    rcases h1 c hc hp with h | h
    · exact h
    · exfalso; injection h with h; omega
  · rcases h2 with ⟨g1, g2, g3⟩ | ⟨b, hb1, hb2, hb3, hb4, hb5, hb6⟩
    · refine Or.inl ⟨g1, g2, fun c hc hp => ?_⟩
      have h := g3 c hc hp
      injection h with h
      omega
    · exact Or.inr ⟨b, hb1, hb2, hb3, hb4, hb6⟩

/-- The backpropagation walk turns the mid-iteration invariant into the
full `ChildVisits` ∧ `BestInv` invariant. -/
theorem backprop_gen_inv (rp : Int) (wp : ℚ) :
    ∀ (fuel : Nat) (cur : Option Nat) (st : SState),
      ParentLt st → (st.node 0).parent = none →
      (∀ c, cur = some c → c < fuel ∨ st.nodes.length ≤ c) →
      BestInvGen st cur →
      ChildVisits (backprop rp wp fuel cur st) ∧ BestInv (backprop rp wp fuel cur st) := by
  intro fuel
  induction fuel with
  | zero =>
    intro cur st _ _ hj hgen
    match cur with
    | none => exact bestInvGen_none hgen
    | some c =>
      rcases hj c rfl with h | h
      · omega
      · exact bestInvGen_oob h hgen
  | succ m ih =>
    intro cur st hpl hrp hj hgen
    match cur with
    | none => exact bestInvGen_none hgen
    | some j =>
      rw [backprop]
      have hP' : ParentLt (backstep rp wp st j) := by
        intro a k ha
        rw [backstep_node] at ha
        by_cases h : a = j ∧ j < st.nodes.length
        · rw [if_pos h] at ha
          obtain ⟨rfl, -⟩ := h
          exact hpl a k ha
        · rw [if_neg h] at ha
          exact hpl a k ha
      have hrp' : ((backstep rp wp st j).node 0).parent = none := by
        rw [backstep_node]
        by_cases h : 0 = j ∧ j < st.nodes.length
        · rw [if_pos h]
          show (st.node j).parent = none
          rw [← h.1]; exact hrp
        · rw [if_neg h]; exact hrp
      obtain ⟨hcl1, hcl2⟩ := hgen
      by_cases hjl : j < st.nodes.length
      case neg =>
        -- null-like index: no node is a root child equal to j, the write is
        -- ineffective for the invariant, and the walk stops (default parent)
        have hd : st.node j = default := node_default_of_le (by omega)
        have hnp : (st.node j).parent = none := by rw [hd]; rfl
        rw [hnp, backprop_none]
        obtain ⟨hcv, hbi⟩ := bestInvGen_oob (by omega) ⟨hcl1, hcl2⟩
        constructor
        · intro c hc hp
          rw [backstep_node, if_neg (fun h => hjl h.2)] at hp ⊢
          rw [backstep_len] at hc
          exact hcv c hc hp
        · have hupd : ¬((st.node j).parent = some 0 ∧
              st.max_visits < (((st.node j).visits + 1 : Nat) : Int)) := by
            rw [hnp]; rintro ⟨h, -⟩; exact Option.noConfusion h
          rcases hbi with ⟨g1, g2, g3⟩ | ⟨b, hb1, hb2, hb3, hb4, hb5⟩
          · refine Or.inl ⟨?_, ?_, fun c hc => ?_⟩
            · rw [backstep_best, if_neg hupd]; exact g1
            · rw [backstep_max, if_neg hupd]; exact g2
            · rw [backstep_node, if_neg (fun h => hjl h.2)]
              rw [backstep_len] at hc
              exact g3 c hc
          · refine Or.inr ⟨b, by rw [backstep_len]; exact hb1, ?_, ?_, ?_, fun c hc => ?_⟩
            · rw [backstep_best, if_neg hupd]; exact hb2
            · rw [backstep_node, if_neg (fun h => hjl h.2)]; exact hb3
            · rw [backstep_max, if_neg hupd, backstep_node, if_neg (fun h => hjl h.2)]
              exact hb4
            · rw [backstep_node, if_neg (fun h => hjl h.2),
                backstep_node, if_neg (fun h => hjl h.2)]
              rw [backstep_len] at hc
              exact hb5 c hc
      case pos =>
        have hfuel : j < m + 1 := by
          rcases hj j rfl with h | h
          · exact h
          · omega
        -- visit counts in the stepped state
        have hnode_j : ((backstep rp wp st j).node j).visits = (st.node j).visits + 1 := by
          rw [backstep_node, if_pos ⟨rfl, hjl⟩]
        have hnode_ne : ∀ a, a ≠ j → (backstep rp wp st j).node a = st.node a := by
          intro a ha
          rw [backstep_node, if_neg (fun h => ha h.1)]
        have hparent_j : ((backstep rp wp st j).node j).parent = (st.node j).parent := by
          rw [backstep_node, if_pos ⟨rfl, hjl⟩]
        by_cases hp0 : (st.node j).parent = some 0
        case pos =>
          have hj0 : 0 < j := hpl j 0 hp0
          refine ih (st.node j).parent (backstep rp wp st j) hP' hrp' ?_ ?_
          · intro c hc
            rw [hp0] at hc
            injection hc with hc
            left; omega
          · constructor
            · -- every root child of the stepped state has been visited
              intro c hc hp
              rw [backstep_len] at hc
              rcases eq_or_ne c j with rfl | hcj
              · rw [hnode_j]; left; omega
              · rw [hnode_ne c hcj] at hp ⊢
                rcases hcl1 c hc hp with h | h
                · exact Or.inl h
                · injection h with h; omega
            · by_cases hup : st.max_visits < (((st.node j).visits + 1 : Nat) : Int)
              case pos =>
                -- the update fires: j becomes the tracked best root child
                refine Or.inr ⟨j, by rw [backstep_len]; exact hjl, ?_, ?_, ?_, ?_, ?_⟩
                · rw [backstep_best, if_pos ⟨hp0, hup⟩]
                · rw [hparent_j]; exact hp0
                · rw [backstep_max, if_pos ⟨hp0, hup⟩, hnode_j]
                · rw [hnode_j]; omega
                · intro c hc hp
                  rw [backstep_len] at hc
                  rcases eq_or_ne c j with rfl | hcj
                  · exact le_refl _
                  · rw [hnode_ne c hcj] at hp ⊢
                    rw [hnode_j]
                    rcases hcl2 with ⟨g1, g2, g3⟩ | ⟨b, hb1, hb2, hb3, hb4, hb5, hb6⟩
                    · have := g3 c hc hp
                      injection this with this; omega
                    · have h1 := hb6 c hc hp
                      have h2 : ((st.node b).visits : Int) < (st.node j).visits + 1 := by
                        rw [← hb4]
                        exact_mod_cast hup
                      omega
              case neg =>
                rcases hcl2 with ⟨g1, g2, g3⟩ | ⟨b, hb1, hb2, hb3, hb4, hb5, hb6⟩
                · exfalso
                  rw [g2] at hup
                  push_cast at hup
                  omega
                · have hbj : b ≠ j := by
                    intro h
                    subst h
                    rw [hb4] at hup
                    push_cast at hup
                    omega
                  refine Or.inr ⟨b, by rw [backstep_len]; exact hb1, ?_, ?_, ?_, ?_, ?_⟩
                  · rw [backstep_best, if_neg (fun h => hup h.2)]; exact hb2
                  · rw [hnode_ne b hbj]; exact hb3
                  · rw [backstep_max, if_neg (fun h => hup h.2), hnode_ne b hbj]
                    exact hb4
                  · rw [hnode_ne b hbj]; exact hb5
                  · intro c hc hp
                    rw [backstep_len] at hc
                    rcases eq_or_ne c j with rfl | hcj
                    · rw [hnode_j, hnode_ne b hbj]
                      have : (((st.node c).visits + 1 : Nat) : Int) ≤ ((st.node b).visits : Int) := by
                        rw [← hb4]; omega
                      exact_mod_cast this
                    · rw [hnode_ne c hcj] at hp ⊢
                      rw [hnode_ne b hbj]
                      exact hb6 c hc hp
        case neg =>
          -- j is not a root child: no update, root children untouched
          have hupd : ¬((st.node j).parent = some 0 ∧
              st.max_visits < (((st.node j).visits + 1 : Nat) : Int)) :=
            fun h => hp0 h.1
          refine ih (st.node j).parent (backstep rp wp st j) hP' hrp' ?_ ?_
          · intro c hc
            have := hpl j c hc
            left
            omega
          · constructor
            · intro c hc hp
              rw [backstep_len] at hc
              have hcj : c ≠ j := by
                intro h
                subst h
                rw [hparent_j] at hp
                exact hp0 hp
              rw [hnode_ne c hcj] at hp ⊢
              rcases hcl1 c hc hp with h | h
              · exact Or.inl h
              · injection h with h
                exact absurd h.symm hcj
            · rcases hcl2 with ⟨g1, g2, g3⟩ | ⟨b, hb1, hb2, hb3, hb4, hb5, hb6⟩
              · refine Or.inl ⟨?_, ?_, fun c hc hp => ?_⟩
                · rw [backstep_best, if_neg hupd]; exact g1
                · rw [backstep_max, if_neg hupd]; exact g2
                · exfalso
                  rw [backstep_len] at hc
                  have hcj : c ≠ j := by
                    intro h
                    subst h
                    rw [hparent_j] at hp
                    exact hp0 hp
                  rw [hnode_ne c hcj] at hp
                  have := g3 c hc hp
                  injection this with this
                  exact hcj this.symm
              · have hbj : b ≠ j := by
                  intro h
                  subst h
                  exact hp0 hb3
                refine Or.inr ⟨b, by rw [backstep_len]; exact hb1, ?_, ?_, ?_, ?_, ?_⟩
                · rw [backstep_best, if_neg hupd]; exact hb2
                · rw [hnode_ne b hbj]; exact hb3
                · rw [backstep_max, if_neg hupd, hnode_ne b hbj]; exact hb4
                · rw [hnode_ne b hbj]; exact hb5
                · intro c hc hp
                  rw [backstep_len] at hc
                  have hcj : c ≠ j := by
                    intro h
                    subst h
                    rw [hparent_j] at hp
                    exact hp0 hp
                  rw [hnode_ne c hcj] at hp ⊢
                  rw [hnode_ne b hbj]
                  exact hb6 c hc hp


theorem region_mem_set {pool : List Move} {N : Nat} {L : List Move}
    (hmem : ∀ k, k < N → pool.getD k default ∈ L) (j : Nat) (v : Move)
    (hv : v ∈ L ∨ N ≤ j) :
    ∀ k, k < N → (pool.set j v).getD k default ∈ L := by
  intro k hk
  by_cases hkj : j = k
  · subst hkj
    rcases hv with hv | hv
    · by_cases hkl : j < pool.length
      · rw [getD_set_self _ _ hkl]; exact hv
      · rw [List.set_eq_of_length_le (le_of_not_lt hkl)]; exact hmem j hk
    · omega
  · rw [getD_set_ne _ _ hkj]
    exact hmem k hk

theorem removeMove_len (st : SState) (i : Nat) :
    (removeMove st i).nodes.length = st.nodes.length := by
  simp [removeMove]

theorem removeMove_pool_len (st : SState) (i : Nat) :
    (removeMove st i).move_pool.length = st.move_pool.length := by
  simp [removeMove]

theorem removeMove_node (st : SState) (i a : Nat) :
    (removeMove st i).node a =
      if a = i ∧ i < st.nodes.length then
        { st.node i with moves_count := (st.node i).moves_count - 1 }
      else st.node a := node_set a

theorem removeMove_pool (st : SState) (i : Nat) :
    (removeMove st i).move_pool =
      (st.move_pool.set
          ((st.node i).moves_start + fast_rand st.rng % (st.node i).moves_count)
          (st.move_pool.getD ((st.node i).moves_start + (st.node i).moves_count - 1)
            default)).set
        ((st.node i).moves_start + (st.node i).moves_count - 1)
        (st.move_pool.getD
          ((st.node i).moves_start + fast_rand st.rng % (st.node i).moves_count)
          default) := rfl

theorem removeMove_best (st : SState) (i : Nat) :
    (removeMove st i).best_child = st.best_child := rfl

theorem removeMove_max (st : SState) (i : Nat) :
    (removeMove st i).max_visits = st.max_visits := rfl

theorem addChild_len (st1 : SState) (i : Nat) (m : Move) (cur : Int) (gen : List Move) :
    (addChild st1 i m cur gen).nodes.length = st1.nodes.length + 1 := by
  simp [addChild]

theorem addChild_pool (st1 : SState) (i : Nat) (m : Move) (cur : Int) (gen : List Move) :
    (addChild st1 i m cur gen).move_pool = st1.move_pool ++ gen := rfl

theorem addChild_best (st1 : SState) (i : Nat) (m : Move) (cur : Int) (gen : List Move) :
    (addChild st1 i m cur gen).best_child = st1.best_child := rfl

theorem addChild_max (st1 : SState) (i : Nat) (m : Move) (cur : Int) (gen : List Move) :
    (addChild st1 i m cur gen).max_visits = st1.max_visits := rfl

theorem addChild_node (st1 : SState) (i : Nat) (m : Move) (cur : Int) (gen : List Move)
    (a : Nat) :
    (addChild st1 i m cur gen).node a =
      if a = st1.nodes.length then
        { parent := some i, first_child := none,
          next_sibling := (st1.node i).first_child,
          move := m, moves_start := st1.move_pool.length, moves_count := gen.length,
          wins := 0, visits := 0, player_just_moved := cur }
      else if a = i ∧ i < st1.nodes.length then
        { st1.node i with first_child := some st1.nodes.length }
      else st1.node a := by
  show ((st1.nodes.set i { st1.node i with first_child := some st1.nodes.length }) ++
      [({ parent := some i, first_child := none,
          next_sibling := (st1.node i).first_child,
          move := m, moves_start := st1.move_pool.length, moves_count := gen.length,
          wins := 0, visits := 0, player_just_moved := cur } : SNode)]).getD a default = _
  rcases Nat.lt_trichotomy a st1.nodes.length with ha | ha | ha
  · rw [if_neg (by omega)]
    by_cases hai : a = i
    · subst hai
      have hcond : a = a ∧ a < st1.nodes.length := ⟨rfl, ha⟩
      rw [if_pos hcond, getD_append_left _ (by simpa using ha), getD_set_self _ _ ha]
    · rw [if_neg (fun hh => hai hh.1),
        getD_append_left _ (by simpa using ha),
        getD_set_ne _ _ (fun hh => hai hh.symm)]
      rfl
  · rw [if_pos ha, ha]
    have h1 := @getD_append_last SNode
      (st1.nodes.set i { st1.node i with first_child := some st1.nodes.length })
      ({ parent := some i, first_child := none,
         next_sibling := (st1.node i).first_child,
         move := m, moves_start := st1.move_pool.length, moves_count := gen.length,
         wins := 0, visits := 0, player_just_moved := cur } : SNode) default
    rw [List.length_set] at h1
    exact h1
  · rw [if_neg (by omega), if_neg (fun hh => by omega),
      getD_of_length_le _ (by simp; omega)]
    exact (node_default_of_le (by omega)).symm

theorem preInv_of_inv {rootB : Board} {rootP : Int} {st : SState}
    (h : Inv rootB rootP st) (cur : Option Nat) : PreInv rootB rootP st cur :=
  ⟨h.len_pos, h.root_parent, h.parent_lt, h.fc_valid,
    bestInvGen_of_inv h.child_visits h.best_inv cur, h.root_fc, h.root_start,
    h.root_count, h.region_mem, h.region_len, h.nonroot_start, h.child_move⟩

/-- The mid-iteration invariant turns into the full invariant across the
backpropagation that closes the iteration. -/
theorem backprop_inv {rootB : Board} {rootP : Int} {st : SState} {cur : Option Nat}
    (h : PreInv rootB rootP st cur) (wp : ℚ) (fuel : Nat)
    (hf : ∀ c, cur = some c → c < fuel ∨ st.nodes.length ≤ c) :
    Inv rootB rootP (backprop rootP wp fuel cur st) := by
  obtain ⟨hlen, hpool, hnode⟩ := backprop_preserve rootP wp fuel cur st
  obtain ⟨hcv, hbi⟩ :=
    backprop_gen_inv rootP wp fuel cur st h.parent_lt h.root_parent hf h.gen_inv
  refine ⟨?_, ?_, ?_, ?_, hcv, hbi, ?_, ?_, ?_, ?_, ?_, ?_, ?_⟩
  · rw [hlen]; exact h.len_pos
  · rw [(hnode 0).1]; exact h.root_parent
  · intro j k hj
    rw [(hnode j).1] at hj
    exact h.parent_lt j k hj
  · intro j c hj hc
    rw [hlen] at hj
    rw [(hnode j).2.1] at hc
    obtain ⟨h1, h2⟩ := h.fc_valid j c hj hc
    rw [hlen, (hnode c).1]
    exact ⟨h1, h2⟩
  · rw [(hnode 0).2.1, hlen]
    constructor
    · intro hx c hc
      rw [(hnode c).1]
      exact h.root_fc.1 hx c hc
    · intro hx
      refine h.root_fc.2 fun c hc => ?_
      have h3 := hx c hc
      rw [(hnode c).1] at h3
      exact h3
  · rw [(hnode 0).2.2.1]; exact h.root_start
  · rw [(hnode 0).2.2.2.1]; exact h.root_count
  · intro k hk; rw [hpool]; exact h.region_mem k hk
  · rw [hpool]; exact h.region_len
  · intro j h0 hj
    rw [hlen] at hj
    rw [(hnode j).2.2.1]
    exact h.nonroot_start j h0 hj
  · intro c hc hp
    rw [hlen] at hc
    rw [(hnode c).1] at hp
    rw [(hnode c).2.2.2.2]
    exact h.child_move c hc hp

/-- Removing one untried move from node `i`'s slice keeps the full
invariant: only `moves_count` shrinks, and the two pool writes stay inside
the node's own slice (inside the root region with root-legal values when
`i = 0`, entirely beyond it otherwise). -/
theorem removeMove_inv {rootB : Board} {rootP : Int} {st : SState}
    (h : Inv rootB rootP st) (i : Nat) (hc : 0 < (st.node i).moves_count) :
    Inv rootB rootP (removeMove st i) := by
  have hil : i < st.nodes.length := by
    by_contra hx
    rw [node_default_of_le (le_of_not_lt hx)] at hc
    exact absurd hc (by decide)
  have hnd : ∀ a, ((removeMove st i).node a).parent = (st.node a).parent ∧
      ((removeMove st i).node a).first_child = (st.node a).first_child ∧
      ((removeMove st i).node a).moves_start = (st.node a).moves_start ∧
      ((removeMove st i).node a).move = (st.node a).move ∧
      ((removeMove st i).node a).visits = (st.node a).visits := by
    intro a
    rw [removeMove_node]
    by_cases hx : a = i ∧ i < st.nodes.length
    · rw [if_pos hx]; obtain ⟨rfl, -⟩ := hx; exact ⟨rfl, rfl, rfl, rfl, rfl⟩
    · rw [if_neg hx]; exact ⟨rfl, rfl, rfl, rfl, rfl⟩
  refine ⟨?_, ?_, ?_, ?_, ?_, ?_, ?_, ?_, ?_, ?_, ?_, ?_, ?_⟩
  · rw [removeMove_len]; exact h.len_pos
  · rw [(hnd 0).1]; exact h.root_parent
  · intro j k hj
    rw [(hnd j).1] at hj
    exact h.parent_lt j k hj
  · intro j c hj hfc
    rw [removeMove_len] at hj
    rw [(hnd j).2.1] at hfc
    obtain ⟨h1, h2⟩ := h.fc_valid j c hj hfc
    rw [removeMove_len, (hnd c).1]
    exact ⟨h1, h2⟩
  · intro c hcl hp
    rw [removeMove_len] at hcl
    rw [(hnd c).1] at hp
    rw [(hnd c).2.2.2.2]
    exact h.child_visits c hcl hp
  · rcases h.best_inv with ⟨g1, g2, g3⟩ | ⟨b, hb1, hb2, hb3, hb4, hb5⟩
    · refine Or.inl ⟨?_, ?_, ?_⟩
      · rw [removeMove_best]; exact g1
      · rw [removeMove_max]; exact g2
      · intro c hcl
        rw [removeMove_len] at hcl
        rw [(hnd c).1]
        exact g3 c hcl
    · refine Or.inr ⟨b, ?_, ?_, ?_, ?_, ?_⟩
      · rw [removeMove_len]; exact hb1
      · rw [removeMove_best]; exact hb2
      · rw [(hnd b).1]; exact hb3
      · rw [removeMove_max, (hnd b).2.2.2.2]; exact hb4
      · intro c hcl hp
        rw [removeMove_len] at hcl
        rw [(hnd c).1] at hp
        rw [(hnd c).2.2.2.2, (hnd b).2.2.2.2]
        exact hb5 c hcl hp
  · rw [(hnd 0).2.1, removeMove_len]
    constructor
    · intro hx c hcl
      rw [(hnd c).1]
      exact h.root_fc.1 hx c hcl
    · intro hx
      refine h.root_fc.2 fun c hcl => ?_
      have h3 := hx c hcl
      rw [(hnd c).1] at h3
      exact h3
  · rw [(hnd 0).2.2.1]; exact h.root_start
  · rw [removeMove_node]
    by_cases hx : 0 = i ∧ i < st.nodes.length
    · obtain ⟨h0i, -⟩ := hx
      rw [if_pos ⟨h0i, hil⟩]
      show (st.node i).moves_count - 1 ≤ _
      subst h0i
      exact le_trans (Nat.sub_le _ _) h.root_count
    · rw [if_neg hx]; exact h.root_count
  · intro k hk
    rw [removeMove_pool]
    by_cases hi0 : i = 0
    · subst hi0
      have hstart := h.root_start
      have hcnt := h.root_count
      have hmod := Nat.mod_lt (fast_rand st.rng) hc
      have hidx : (st.node 0).moves_start + fast_rand st.rng % (st.node 0).moves_count <
          rootGenCount rootB rootP := by omega
      have hlast : (st.node 0).moves_start + (st.node 0).moves_count - 1 <
          rootGenCount rootB rootP := by omega
      exact region_mem_set
        (region_mem_set h.region_mem _ _ (Or.inl (h.region_mem _ hlast))) _ _
        (Or.inl (h.region_mem _ hidx)) k hk
    · have hge := h.nonroot_start i (Nat.pos_of_ne_zero hi0) hil
      exact region_mem_set
        (region_mem_set h.region_mem _ _ (Or.inr (by omega))) _ _
        (Or.inr (by omega)) k hk
  · rw [removeMove_pool_len]; exact h.region_len
  · intro j h0 hj
    rw [removeMove_len] at hj
    rw [(hnd j).2.2.1]
    exact h.nonroot_start j h0 hj
  · intro c hcl hp
    rw [removeMove_len] at hcl
    rw [(hnd c).1] at hp
    rw [(hnd c).2.2.2.1]
    exact h.child_move c hcl hp

/-- The move the expansion picks at the root is one of the root's generated
legal moves: the root's slice starts at pool offset 0 and the random offset
stays below its count, which is bounded by the generated count. -/
theorem pickMove_mem {rootB : Board} {rootP : Int} {st : SState}
    (h : Inv rootB rootP st) (hc : 0 < (st.node 0).moves_count) :
    pickMove st 0 ∈ get_legal_moves rootB rootP := by
  have hstart := h.root_start
  have hcnt := h.root_count
  have hmod := Nat.mod_lt (fast_rand st.rng) hc
  have hidx : (st.node 0).moves_start + fast_rand st.rng % (st.node 0).moves_count <
      rootGenCount rootB rootP := by omega
  exact h.region_mem _ hidx

/-- Allocating and linking the new child establishes the mid-iteration
invariant for the backpropagation that starts at the child: the child sits
at the old pool end (so parent indices still decrease), its untried slice
lies past the root region, the root's child-link equivalence is maintained,
and the fresh 0-visit child is accounted for by the `BestInvGen` slack. -/
theorem addChild_preInv {rootB : Board} {rootP : Int} {st1 : SState}
    (h : Inv rootB rootP st1) (i : Nat) (m : Move) (cur : Int) (gen : List Move)
    (hil : i < st1.nodes.length) (hm : i = 0 → m ∈ get_legal_moves rootB rootP) :
    PreInv rootB rootP (addChild st1 i m cur gen) (some st1.nodes.length) := by
  have hlp := h.len_pos
  have hnew : (addChild st1 i m cur gen).node st1.nodes.length =
      { parent := some i, first_child := none,
        next_sibling := (st1.node i).first_child,
        move := m, moves_start := st1.move_pool.length, moves_count := gen.length,
        wins := 0, visits := 0, player_just_moved := cur } := by
    rw [addChild_node, if_pos rfl]
  have hseti : (addChild st1 i m cur gen).node i =
      { st1.node i with first_child := some st1.nodes.length } := by
    have hcond : i = i ∧ i < st1.nodes.length := ⟨rfl, hil⟩
    rw [addChild_node, if_neg (by omega), if_pos hcond]
  have hold : ∀ a, a ≠ st1.nodes.length → a ≠ i →
      (addChild st1 i m cur gen).node a = st1.node a := by
    intro a h1 h2
    rw [addChild_node, if_neg h1, if_neg (fun hh => h2 hh.1)]
  have hpar : ∀ a, a ≠ st1.nodes.length →
      ((addChild st1 i m cur gen).node a).parent = (st1.node a).parent ∧
      ((addChild st1 i m cur gen).node a).moves_start = (st1.node a).moves_start ∧
      ((addChild st1 i m cur gen).node a).moves_count = (st1.node a).moves_count ∧
      ((addChild st1 i m cur gen).node a).move = (st1.node a).move ∧
      ((addChild st1 i m cur gen).node a).visits = (st1.node a).visits := by
    intro a ha
    rw [addChild_node, if_neg ha]
    by_cases hx : a = i ∧ i < st1.nodes.length
    · rw [if_pos hx]; obtain ⟨rfl, -⟩ := hx; exact ⟨rfl, rfl, rfl, rfl, rfl⟩
    · rw [if_neg hx]; exact ⟨rfl, rfl, rfl, rfl, rfl⟩
  refine ⟨?_, ?_, ?_, ?_, ⟨?_, ?_⟩, ?_, ?_, ?_, ?_, ?_, ?_, ?_⟩
  · rw [addChild_len]; omega
  · rw [(hpar 0 (by omega)).1]; exact h.root_parent
  · intro j k hj
    by_cases hjL : j = st1.nodes.length
    · subst hjL
      rw [hnew] at hj
      have h2 : some i = some k := hj
      injection h2 with h2
      omega
    · rw [(hpar j hjL).1] at hj
      exact h.parent_lt j k hj
  · intro j c hjl hfc
    rw [addChild_len] at hjl
    by_cases hjL : j = st1.nodes.length
    · subst hjL
      rw [hnew] at hfc
      exact absurd (show (none : Option Nat) = some c from hfc) (by simp)
    · by_cases hji : j = i
      · rw [hji] at hfc ⊢
        rw [hseti] at hfc
        have h2 : some st1.nodes.length = some c := hfc
        injection h2 with h2
        subst h2
        refine ⟨by rw [addChild_len]; omega, ?_⟩
        rw [hnew]
      · have hjl' : j < st1.nodes.length := by omega
        rw [hold j hjL hji] at hfc
        obtain ⟨hc1, hc2⟩ := h.fc_valid j c hjl' hfc
        refine ⟨by rw [addChild_len]; omega, ?_⟩
        rw [(hpar c (by omega)).1]
        exact hc2
  · intro c hcl hp
    rw [addChild_len] at hcl
    by_cases hcL : c = st1.nodes.length
    · exact Or.inr (by rw [hcL])
    · rw [(hpar c hcL).1] at hp
      exact Or.inl (by
        rw [(hpar c hcL).2.2.2.2]
        exact h.child_visits c (by omega) hp)
  · rcases h.best_inv with ⟨g1, g2, g3⟩ | ⟨b, hb1, hb2, hb3, hb4, hb5⟩
    · refine Or.inl ⟨?_, ?_, ?_⟩
      · rw [addChild_best]; exact g1
      · rw [addChild_max]; exact g2
      · intro c hcl hp
        rw [addChild_len] at hcl
        by_cases hcL : c = st1.nodes.length
        · rw [hcL]
        · rw [(hpar c hcL).1] at hp
          exact absurd hp (g3 c (by omega))
    · refine Or.inr ⟨b, ?_, ?_, ?_, ?_, ?_, ?_⟩
      · rw [addChild_len]; omega
      · rw [addChild_best]; exact hb2
      · rw [(hpar b (by omega)).1]; exact hb3
      · rw [addChild_max, (hpar b (by omega)).2.2.2.2]; exact hb4
      · rw [(hpar b (by omega)).2.2.2.2]
        exact h.child_visits b hb1 hb3
      · intro c hcl hp
        rw [addChild_len] at hcl
        rw [(hpar b (by omega)).2.2.2.2]
        by_cases hcL : c = st1.nodes.length
        · subst hcL
          rw [hnew]
          exact Nat.zero_le _
        · rw [(hpar c hcL).1] at hp
          rw [(hpar c hcL).2.2.2.2]
          exact hb5 c (by omega) hp
  · by_cases hi0 : i = 0
    · subst hi0
      constructor
      · intro hx
        rw [hseti] at hx
        exact absurd (show some st1.nodes.length = (none : Option Nat) from hx) (by simp)
      · intro hx
        exfalso
        refine hx st1.nodes.length (by rw [addChild_len]; omega) ?_
        rw [hnew]
    · constructor
      · intro hx c hcl hp
        rw [hold 0 (by omega) (fun hh => hi0 hh.symm)] at hx
        rw [addChild_len] at hcl
        by_cases hcL : c = st1.nodes.length
        · subst hcL
          rw [hnew] at hp
          have h2 : some i = some 0 := hp
          injection h2 with h2
          exact hi0 h2
        · rw [(hpar c hcL).1] at hp
          exact h.root_fc.1 hx c (by omega) hp
      · intro hx
        rw [hold 0 (by omega) (fun hh => hi0 hh.symm)]
        refine h.root_fc.2 fun c hcl => ?_
        have h3 := hx c (by rw [addChild_len]; omega)
        rw [(hpar c (by omega)).1] at h3
        exact h3
  · rw [(hpar 0 (by omega)).2.1]; exact h.root_start
  · rw [(hpar 0 (by omega)).2.2.1]; exact h.root_count
  · intro k hk
    rw [addChild_pool, getD_append_left _ (lt_of_lt_of_le hk h.region_len)]
    exact h.region_mem k hk
  · rw [addChild_pool, List.length_append]
    have h3 := h.region_len
    omega
  · intro j h0 hjl
    rw [addChild_len] at hjl
    by_cases hjL : j = st1.nodes.length
    · subst hjL
      rw [hnew]
      exact h.region_len
    · rw [(hpar j hjL).2.1]
      exact h.nonroot_start j h0 (by omega)
  · intro c hcl hp
    rw [addChild_len] at hcl
    by_cases hcL : c = st1.nodes.length
    · subst hcL
      rw [hnew] at hp ⊢
      have h2 : some i = some 0 := hp
      injection h2 with h2
      exact hm h2
    · rw [(hpar c hcL).1] at hp
      rw [(hpar c hcL).2.2.2.1]
      exact h.child_move c (by omega) hp

/-- Every branch of the iteration body preserves the search invariant. -/
theorem iterate_inv (sel : SState → Nat → Nat) (evalFn : Board → ℚ)
    (rootB : Board) (rootP : Int) (st : SState) (h : Inv rootB rootP st) :
    Inv rootB rootP (iterate sel evalFn rootB rootP st).state := by
  simp only [iterate]
  by_cases h1 :
      0 < (st.node (selectLoop sel st st.nodes.length 0 rootB rootP).1).moves_count
  · rw [if_pos h1]
    have hil : (selectLoop sel st st.nodes.length 0 rootB rootP).1 < st.nodes.length := by
      by_contra hx
      rw [node_default_of_le (le_of_not_lt hx)] at h1
      exact absurd h1 (by decide)
    have hinv1 := removeMove_inv h _ h1
    by_cases h2 :
        (removeMove st (selectLoop sel st st.nodes.length 0 rootB rootP).1).nodes.length <
          MAX_NODES
    · rw [if_pos h2]
      refine backprop_inv (addChild_preInv hinv1 _ _ _ _ ?_ ?_)
        _ _ (fun c _ => Nat.lt_or_ge c _)
      · rw [removeMove_len]; exact hil
      · intro hi0
        rw [hi0] at h1 ⊢
        exact pickMove_mem h h1
    · rw [if_neg h2]
      exact backprop_inv (preInv_of_inv hinv1 _) _ _ (fun c _ => Nat.lt_or_ge c _)
  · rw [if_neg h1]
    by_cases h2 :
        (st.node (selectLoop sel st st.nodes.length 0 rootB rootP).1).first_child = none
    · rw [if_pos h2]
      exact backprop_inv (preInv_of_inv h _) _ _ (fun c _ => Nat.lt_or_ge c _)
    · rw [if_neg h2]
      exact backprop_inv (preInv_of_inv h _) _ _ (fun c _ => Nat.lt_or_ge c _)

/-- The freshly initialised search state satisfies the invariant. -/
theorem initState_inv (rootB : Board) (rootP : Int) (seed : Nat) :
    Inv rootB rootP (initState rootB rootP seed) := by
  have hlen : (initState rootB rootP seed).nodes.length = 1 := rfl
  have h0 : (initState rootB rootP seed).node 0 =
      { parent := none, first_child := none, next_sibling := none,
        move := sentinelMove, moves_start := 0,
        moves_count := ((get_legal_moves rootB rootP).take MAX_MOVES_POOL).length,
        wins := 0, visits := 0, player_just_moved := -rootP } := rfl
  have hd : ∀ j, 0 < j → (initState rootB rootP seed).node j = default := by
    intro j hj
    exact node_default_of_le (by omega)
  refine ⟨?_, ?_, ?_, ?_, ?_, ?_, ?_, ?_, ?_, ?_, ?_, ?_, ?_⟩
  · rw [hlen]; omega
  · rw [h0]
  · intro j k hj
    rcases Nat.eq_zero_or_pos j with h | h
    · subst h
      rw [h0] at hj
      exact absurd (show (none : Option Nat) = some k from hj) (by simp)
    · rw [hd j h] at hj
      exact absurd (show (none : Option Nat) = some k from hj) (by simp)
  · intro j c hjl hfc
    rw [hlen] at hjl
    have hj0 : j = 0 := by omega
    subst hj0
    rw [h0] at hfc
    exact absurd (show (none : Option Nat) = some c from hfc) (by simp)
  · intro c hcl hp
    rw [hlen] at hcl
    have hc0 : c = 0 := by omega
    subst hc0
    rw [h0] at hp
    exact absurd (show (none : Option Nat) = some 0 from hp) (by simp)
  · refine Or.inl ⟨rfl, rfl, ?_⟩
    intro c hcl hp
    rw [hlen] at hcl
    have hc0 : c = 0 := by omega
    subst hc0
    rw [h0] at hp
    exact absurd (show (none : Option Nat) = some 0 from hp) (by simp)
  · refine ⟨fun _ c hcl hp => ?_, fun _ => rfl⟩
    rw [hlen] at hcl
    have hc0 : c = 0 := by omega
    subst hc0
    rw [h0] at hp
    exact absurd (show (none : Option Nat) = some 0 from hp) (by simp)
  · rw [h0]
  · rw [h0]; exact le_refl _
  · intro k hk
    have hk' : k < ((get_legal_moves rootB rootP).take MAX_MOVES_POOL).length := hk
    show ((get_legal_moves rootB rootP).take MAX_MOVES_POOL).getD k default ∈ _
    rw [List.getD_eq_getElem?_getD, List.getElem?_eq_getElem hk']
    exact List.take_subset _ _ (List.getElem_mem hk')
  · exact le_refl _
  · intro j h1 hj
    rw [hlen] at hj
    omega
  · intro c hcl hp
    rw [hlen] at hcl
    have hc0 : c = 0 := by omega
    subst hc0
    rw [h0] at hp
    exact absurd (show (none : Option Nat) = some 0 from hp) (by simp)

/-- `runIters` preserves the search invariant. -/
theorem runIters_inv (sel : SState → Nat → Nat) (evalFn : Board → ℚ)
    (rootB : Board) (rootP : Int) :
    ∀ (k : Nat) (st : SState), Inv rootB rootP st →
      Inv rootB rootP (runIters sel evalFn rootB rootP k st)
  | 0, _, h => h
  | k + 1, st, h =>
    runIters_inv sel evalFn rootB rootP k _ (iterate_inv sel evalFn rootB rootP st h)

/-- The search loop preserves the search invariant. -/
theorem searchLoop_inv (sel : SState → Nat → Nat) (evalFn : Board → ℚ)
    (rootB : Board) (rootP : Int) (time_up : Nat → Bool) :
    ∀ (blocks : Nat) (st : SState) (iters : Nat), Inv rootB rootP st →
      Inv rootB rootP
        (searchLoop sel evalFn rootB rootP time_up blocks st iters).1
  | 0, _, _, h => h
  | blocks + 1, st, iters, h => by
    rw [searchLoop]
    by_cases hs : stopCond time_up st iters
    · rw [if_pos hs]; exact h
    · rw [if_neg hs]
      exact searchLoop_inv sel evalFn rootB rootP time_up blocks _ _
        (runIters_inv sel evalFn rootB rootP 256 st h)

theorem backprop_len (rp : Int) (wp : ℚ) (fuel : Nat) (cur : Option Nat) (st : SState) :
    (backprop rp wp fuel cur st).nodes.length = st.nodes.length :=
  (backprop_preserve rp wp fuel cur st).1

theorem backprop_pool_eq (rp : Int) (wp : ℚ) (fuel : Nat) (cur : Option Nat) (st : SState) :
    (backprop rp wp fuel cur st).move_pool = st.move_pool :=
  (backprop_preserve rp wp fuel cur st).2.1

theorem parentLt_backstep (rp : Int) (wp : ℚ) (st : SState) (j : Nat)
    (h : ParentLt st) : ParentLt (backstep rp wp st j) := by
  intro a k ha
  rw [backstep_node] at ha
  by_cases hx : a = j ∧ j < st.nodes.length
  · rw [if_pos hx] at ha
    obtain ⟨rfl, -⟩ := hx
    exact h a k ha
  · rw [if_neg hx] at ha
    exact h a k ha

/-- When parent indices strictly decrease, a backpropagation starting
strictly below `a` never touches node `a`. -/
theorem backprop_node_lt (rp : Int) (wp : ℚ) :
    ∀ (fuel : Nat) (cur : Option Nat) (st : SState) (a : Nat), ParentLt st →
      (∀ c, cur = some c → c < a) →
      (backprop rp wp fuel cur st).node a = st.node a := by
  intro fuel
  induction fuel with
  | zero => intro cur st a _ _; rfl
  | succ m ih =>
    intro cur st a hpl hlt
    match cur with
    | none => rfl
    | some j =>
      have hja := hlt j rfl
      rw [backprop,
        ih (st.node j).parent (backstep rp wp st j) a (parentLt_backstep rp wp st j hpl)
          (fun c hc => by have := hpl j c hc; omega),
        backstep_node, if_neg (fun hh => by omega)]

/-- Pool-size bookkeeping of one iteration: both pools are monotonically
non-decreasing, and both capacity bounds are preserved (the node pool grows
only under the `new_node` guard; the move-pool growth is truncated at the
remaining capacity). -/
theorem iterate_sizes (sel : SState → Nat → Nat) (evalFn : Board → ℚ)
    (rootB : Board) (rootP : Int) (st : SState) :
    st.nodes.length ≤ (iterate sel evalFn rootB rootP st).state.nodes.length ∧
    st.move_pool.length ≤ (iterate sel evalFn rootB rootP st).state.move_pool.length ∧
    (st.nodes.length ≤ MAX_NODES →
      (iterate sel evalFn rootB rootP st).state.nodes.length ≤ MAX_NODES) ∧
    (st.move_pool.length ≤ MAX_MOVES_POOL →
      (iterate sel evalFn rootB rootP st).state.move_pool.length ≤ MAX_MOVES_POOL) := by
  simp only [iterate]
  by_cases h1 :
      0 < (st.node (selectLoop sel st st.nodes.length 0 rootB rootP).1).moves_count
  · rw [if_pos h1]
    by_cases h2 :
        (removeMove st (selectLoop sel st st.nodes.length 0 rootB rootP).1).nodes.length <
          MAX_NODES
    · rw [if_pos h2]
      rw [removeMove_len] at h2
      refine ⟨?_, ?_, ?_, ?_⟩
      · rw [backprop_len, addChild_len, removeMove_len]; omega
      · rw [backprop_pool_eq, addChild_pool, List.length_append]
        exact le_trans (le_of_eq (removeMove_pool_len st _).symm) (Nat.le_add_right _ _)
      · intro hc
        rw [backprop_len, addChild_len, removeMove_len]
        omega
      · intro hc
        rw [backprop_pool_eq, addChild_pool, List.length_append, List.length_take,
          removeMove_pool_len]
        omega
    · rw [if_neg h2]
      refine ⟨?_, ?_, ?_, ?_⟩
      · rw [backprop_len, removeMove_len]
      · rw [backprop_pool_eq, removeMove_pool_len]
      · intro hc; rw [backprop_len, removeMove_len]; exact hc
      · intro hc; rw [backprop_pool_eq, removeMove_pool_len]; exact hc
  · rw [if_neg h1]
    by_cases h2 :
        (st.node (selectLoop sel st st.nodes.length 0 rootB rootP).1).first_child = none
    · rw [if_pos h2]
      exact ⟨le_of_eq (backprop_len _ _ _ _ _).symm,
        le_of_eq (congrArg List.length (backprop_pool_eq _ _ _ _ _)).symm,
        fun hc => le_trans (le_of_eq (backprop_len _ _ _ _ _)) hc,
        fun hc => le_trans (le_of_eq (congrArg List.length (backprop_pool_eq _ _ _ _ _))) hc⟩
    · rw [if_neg h2]
      exact ⟨le_of_eq (backprop_len _ _ _ _ _).symm,
        le_of_eq (congrArg List.length (backprop_pool_eq _ _ _ _ _)).symm,
        fun hc => le_trans (le_of_eq (backprop_len _ _ _ _ _)) hc,
        fun hc => le_trans (le_of_eq (congrArg List.length (backprop_pool_eq _ _ _ _ _))) hc⟩

theorem runIters_sizes (sel : SState → Nat → Nat) (evalFn : Board → ℚ)
    (rootB : Board) (rootP : Int) :
    ∀ (k : Nat) (st : SState),
      st.nodes.length ≤ (runIters sel evalFn rootB rootP k st).nodes.length ∧
      st.move_pool.length ≤ (runIters sel evalFn rootB rootP k st).move_pool.length ∧
      (st.nodes.length ≤ MAX_NODES →
        (runIters sel evalFn rootB rootP k st).nodes.length ≤ MAX_NODES) ∧
      (st.move_pool.length ≤ MAX_MOVES_POOL →
        (runIters sel evalFn rootB rootP k st).move_pool.length ≤ MAX_MOVES_POOL)
  | 0, st => ⟨le_refl _, le_refl _, fun hc => hc, fun hc => hc⟩
  | k + 1, st => by
    obtain ⟨i1, i2, i3, i4⟩ := iterate_sizes sel evalFn rootB rootP st
    obtain ⟨r1, r2, r3, r4⟩ :=
      runIters_sizes sel evalFn rootB rootP k (iterate sel evalFn rootB rootP st).state
    exact ⟨le_trans i1 r1, le_trans i2 r2, fun hc => r3 (i3 hc), fun hc => r4 (i4 hc)⟩

theorem searchLoop_sizes (sel : SState → Nat → Nat) (evalFn : Board → ℚ)
    (rootB : Board) (rootP : Int) (time_up : Nat → Bool) :
    ∀ (blocks : Nat) (st : SState) (iters : Nat),
      st.nodes.length ≤ MAX_NODES → st.move_pool.length ≤ MAX_MOVES_POOL →
      (searchLoop sel evalFn rootB rootP time_up blocks st iters).1.nodes.length ≤
          MAX_NODES ∧
        (searchLoop sel evalFn rootB rootP time_up blocks st iters).1.move_pool.length ≤
          MAX_MOVES_POOL
  | 0, st, iters, hn, hp => ⟨hn, hp⟩
  | blocks + 1, st, iters, hn, hp => by
    rw [searchLoop]
    by_cases hs : stopCond time_up st iters
    · rw [if_pos hs]; exact ⟨hn, hp⟩
    · rw [if_neg hs]
      obtain ⟨-, -, r3, r4⟩ := runIters_sizes sel evalFn rootB rootP 256 st
      exact searchLoop_sizes sel evalFn rootB rootP time_up blocks _ _ (r3 hn) (r4 hp)

theorem initState_sizes (rootB : Board) (rootP : Int) (seed : Nat) :
    (initState rootB rootP seed).nodes.length ≤ MAX_NODES ∧
      (initState rootB rootP seed).move_pool.length ≤ MAX_MOVES_POOL := by
  constructor
  · show 1 ≤ MAX_NODES
    rw [MAX_NODES]
    omega
  · show ((get_legal_moves rootB rootP).take MAX_MOVES_POOL).length ≤ MAX_MOVES_POOL
    rw [List.length_take]
    omega

/-- A backpropagation starting at `i` increments `i`'s visit count: the
first step does, and the walk then climbs strictly decreasing parent
indices, never returning to `i`. -/
theorem backprop_start_visits {st1 : SState} (hpl : ParentLt st1) {wp : ℚ}
    {rp : Int} {i fuel : Nat} (hil : i < st1.nodes.length) (hf : 1 ≤ fuel) :
    ((backprop rp wp fuel (some i) st1).node i).visits = (st1.node i).visits + 1 := by
  obtain ⟨n, rfl⟩ : ∃ n, fuel = n + 1 := ⟨fuel - 1, by omega⟩
  have hcond : i = i ∧ i < st1.nodes.length := ⟨rfl, hil⟩
  rw [backprop,
    backprop_node_lt rp wp n (st1.node i).parent (backstep rp wp st1 i) i
      (parentLt_backstep rp wp st1 i hpl) (fun c hc => hpl i c hc),
    backstep_node, if_pos hcond]

/--
C2.  Whenever an iteration's expansion step generates the legal-move list of
the newly reached position and the move generator returns count 0, the
iteration marks the position terminal and scores it exactly 0 when the
searching side is the side to move there and exactly 1 otherwise — and the
evaluator is never invoked: the entire iteration result is independent of
the evaluator argument.
-/
theorem claim_C2 (sel : SState → Nat → Nat) (evalFn : Board → ℚ)
    (root_state : Board) (root_player : Int) (st : SState)
    (h0 : (iterate sel evalFn root_state root_player st).new_count = some 0) :
    (iterate sel evalFn root_state root_player st).terminal = true ∧
    (iterate sel evalFn root_state root_player st).win_prob =
      (if (iterate sel evalFn root_state root_player st).exp_player = root_player
        then 0 else 1) ∧
    ∀ evalFn' : Board → ℚ,
      iterate sel evalFn' root_state root_player st =
        iterate sel evalFn root_state root_player st := by
  simp only [iterate] at h0 ⊢
  by_cases h1 :
      0 < (st.node (selectLoop sel st st.nodes.length 0 root_state root_player).1).moves_count
  · rw [if_pos h1] at h0 ⊢
    by_cases h2 :
        (removeMove st
          (selectLoop sel st st.nodes.length 0 root_state root_player).1).nodes.length <
          MAX_NODES
    · rw [if_pos h2] at h0 ⊢
      simp only [Option.some.injEq] at h0
      refine ⟨by rw [h0]; rfl, by simp only [if_pos h0], ?_⟩
      intro evalFn'
      simp only [if_pos h1, if_pos h2, if_pos h0]
    · rw [if_neg h2] at h0
      simp at h0
  · rw [if_neg h1] at h0
    by_cases h2 :
        (st.node (selectLoop sel st st.nodes.length 0 root_state root_player).1).first_child
          = none
    · rw [if_pos h2] at h0; simp at h0
    · rw [if_neg h2] at h0; simp at h0

/-- Witness for C2: from the one-move board `gC1`, the first iteration
expands Black's only move, reaches a position where White (to move) has no
legal reply, and the generator returns count 0. -/
theorem claim_C2_witness :
    (iterate (fun _ _ => 0) (fun _ => 1 / 2) gC1 BLACK (initState gC1 BLACK 1)).new_count
        = some 0 ∧
      ((iterate (fun _ _ => 0) (fun _ => 1 / 2) gC1 BLACK (initState gC1 BLACK 1)).terminal
          = true ∧
        (iterate (fun _ _ => 0) (fun _ => 1 / 2) gC1 BLACK (initState gC1 BLACK 1)).win_prob =
          (if (iterate (fun _ _ => 0) (fun _ => 1 / 2) gC1 BLACK
              (initState gC1 BLACK 1)).exp_player = BLACK then 0 else 1) ∧
        ∀ evalFn' : Board → ℚ,
          iterate (fun _ _ => 0) evalFn' gC1 BLACK (initState gC1 BLACK 1) =
            iterate (fun _ _ => 0) (fun _ => 1 / 2) gC1 BLACK (initState gC1 BLACK 1)) :=
  ⟨by decide, claim_C2 _ _ _ _ _ (by decide)⟩

/-! ## C9: malformed input -/

/-- Counterexample to C9 as stated: the history line `"abc"` does not parse
into coordinates (`cppExtractInt` fails on it), yet the turn does not
terminate — parsing completes (C++11 failed extraction silently yields 0 for
every coordinate), the zero-move is applied to the board, and `main` goes on
to search and print. -/
theorem claim_C9_counterexample :
    cppExtractInt "abc".data = none ∧ ¬terminatesWithNoOutput ["1", "abc"] := by
  constructor
  · decide
  · show ¬bot026_parse ["1", "abc"] = none
    decide

/--
C9 (amended).  Only the turn-number line is validated: when the input is
empty or its first line has no leading integer (`stoi` throws), the turn
terminates with no move on standard output.  A history line that fails to
parse does *not* terminate the turn: each failed extraction contributes the
coordinate 0 and the replay continues (see `claim_C9_counterexample`).
-/
theorem claim_C9_amended (input : List String)
    (h : input = [] ∨ stoiOpt (input.headD "") = none) :
    terminatesWithNoOutput input := by
  unfold terminatesWithNoOutput bot026_parse
  rcases h with rfl | h
  · rfl
  · cases input with
    | nil => rfl
    | cons l rest =>
      simp only [List.headD_cons] at h
      simp [h]

/-- Witness for C9: the single-line input `"abc"` has an unparsable
turn-number line and indeed produces no move. -/
theorem claim_C9_witness :
    (["abc"] = ([] : List String) ∨ stoiOpt (["abc"].headD "") = none) ∧
      terminatesWithNoOutput ["abc"] :=
  ⟨Or.inr (by decide), claim_C9_amended ["abc"] (Or.inr (by decide))⟩

/-- Witness for C1: on the concrete board `gC1` the unique legal Black move
`mC1` (whose obstacle cell *is* the vacated source cell) satisfies all the
conclusions of `claim_C1`. -/
theorem claim_C1_witness :
    (gC1.length = 64 ∧ (BLACK = BLACK ∨ BLACK = WHITE) ∧ mC1 ∈ get_legal_moves gC1 BLACK) ∧
      MoveEffectOK gC1 BLACK mC1 :=
  ⟨⟨by decide, Or.inl rfl, by decide⟩,
    claim_C1 gC1 (by decide) BLACK (Or.inl rfl) mC1 (by decide)⟩

/--
C8.  Within a search: both pool sizes (the bump-allocation pointers) are
monotonically non-decreasing across an iteration and never exceed their
capacities `MAX_NODES` / `MAX_MOVES_POOL` — in particular the whole search
loop, started from the freshly initialised state, ends within both
capacities — and when the node pool is exhausted at an expansion the
iteration does not fail: `new_node` yields the null sentinel (`oom`), no
child is allocated, the position is not marked terminal, the reached state
is still evaluated (the iteration's score is the evaluator's value of the
post-move board) and backpropagation still runs (the selected node's visit
count is incremented).
-/
theorem claim_C8 (sel : SState → Nat → Nat) (evalFn : Board → ℚ)
    (rootB : Board) (rootP : Int) (st : SState) (h : Inv rootB rootP st) :
    (st.nodes.length ≤ (iterate sel evalFn rootB rootP st).state.nodes.length ∧
      st.move_pool.length ≤ (iterate sel evalFn rootB rootP st).state.move_pool.length) ∧
    ((st.nodes.length ≤ MAX_NODES →
        (iterate sel evalFn rootB rootP st).state.nodes.length ≤ MAX_NODES) ∧
      (st.move_pool.length ≤ MAX_MOVES_POOL →
        (iterate sel evalFn rootB rootP st).state.move_pool.length ≤ MAX_MOVES_POOL)) ∧
    (∀ (time_up : Nat → Bool) (seed blocks : Nat),
      (searchLoop sel evalFn rootB rootP time_up blocks
          (initState rootB rootP seed) 0).1.nodes.length ≤ MAX_NODES ∧
        (searchLoop sel evalFn rootB rootP time_up blocks
            (initState rootB rootP seed) 0).1.move_pool.length ≤ MAX_MOVES_POOL) ∧
    (0 < (st.node (selectLoop sel st st.nodes.length 0 rootB rootP).1).moves_count →
      MAX_NODES ≤ st.nodes.length →
      (iterate sel evalFn rootB rootP st).oom = true ∧
        (iterate sel evalFn rootB rootP st).new_count = none ∧
        (iterate sel evalFn rootB rootP st).terminal = false ∧
        (iterate sel evalFn rootB rootP st).win_prob =
          evalFn (apply_move (selectLoop sel st st.nodes.length 0 rootB rootP).2.1
            (pickMove st (selectLoop sel st st.nodes.length 0 rootB rootP).1)) ∧
        ((iterate sel evalFn rootB rootP st).state.node
            (selectLoop sel st st.nodes.length 0 rootB rootP).1).visits =
          (st.node (selectLoop sel st st.nodes.length 0 rootB rootP).1).visits + 1) := by
  obtain ⟨i1, i2, i3, i4⟩ := iterate_sizes sel evalFn rootB rootP st
  refine ⟨⟨i1, i2⟩, ⟨i3, i4⟩, ?_, ?_⟩
  · intro time_up seed blocks
    obtain ⟨ha, hb⟩ := initState_sizes rootB rootP seed
    exact searchLoop_sizes sel evalFn rootB rootP time_up blocks _ 0 ha hb
  · intro h1 h2
    have hil : (selectLoop sel st st.nodes.length 0 rootB rootP).1 < st.nodes.length := by
      by_contra hx
      rw [node_default_of_le (le_of_not_lt hx)] at h1
      exact absurd h1 (by decide)
    have hinv1 := removeMove_inv h _ h1
    have hne :
        ¬ (removeMove st (selectLoop sel st st.nodes.length 0 rootB rootP).1).nodes.length <
          MAX_NODES := by
      rw [removeMove_len]; omega
    have hil1 : (selectLoop sel st st.nodes.length 0 rootB rootP).1 <
        (removeMove st (selectLoop sel st st.nodes.length 0 rootB rootP).1).nodes.length := by
      rw [removeMove_len]; exact hil
    have hf : 1 ≤
        (removeMove st (selectLoop sel st st.nodes.length 0 rootB rootP).1).nodes.length := by
      rw [removeMove_len]; omega
    simp only [iterate]
    rw [if_pos h1, if_neg hne]
    refine ⟨rfl, rfl, rfl, rfl, ?_⟩
    rw [backprop_start_visits hinv1.parent_lt hil1 hf, removeMove_node]
    have hcond : (selectLoop sel st st.nodes.length 0 rootB rootP).1 =
        (selectLoop sel st st.nodes.length 0 rootB rootP).1 ∧
        (selectLoop sel st st.nodes.length 0 rootB rootP).1 < st.nodes.length := ⟨rfl, hil⟩
    rw [if_pos hcond]

/-- Witness for C8: the pool bookkeeping and out-of-memory degradation
statement applied to the freshly initialised one-move search state, whose
invariant `initState_inv` provides. -/
theorem claim_C8_witness :
    ((initState gC1 BLACK 1).nodes.length ≤
        (iterate (fun _ _ => 0) (fun _ => 1 / 2) gC1 BLACK
          (initState gC1 BLACK 1)).state.nodes.length ∧
      (initState gC1 BLACK 1).move_pool.length ≤
        (iterate (fun _ _ => 0) (fun _ => 1 / 2) gC1 BLACK
          (initState gC1 BLACK 1)).state.move_pool.length) ∧
    (((initState gC1 BLACK 1).nodes.length ≤ MAX_NODES →
        (iterate (fun _ _ => 0) (fun _ => 1 / 2) gC1 BLACK
          (initState gC1 BLACK 1)).state.nodes.length ≤ MAX_NODES) ∧
      ((initState gC1 BLACK 1).move_pool.length ≤ MAX_MOVES_POOL →
        (iterate (fun _ _ => 0) (fun _ => 1 / 2) gC1 BLACK
          (initState gC1 BLACK 1)).state.move_pool.length ≤ MAX_MOVES_POOL)) ∧
    (∀ (time_up : Nat → Bool) (seed blocks : Nat),
      (searchLoop (fun _ _ => 0) (fun _ => 1 / 2) gC1 BLACK time_up blocks
          (initState gC1 BLACK seed) 0).1.nodes.length ≤ MAX_NODES ∧
        (searchLoop (fun _ _ => 0) (fun _ => 1 / 2) gC1 BLACK time_up blocks
            (initState gC1 BLACK seed) 0).1.move_pool.length ≤ MAX_MOVES_POOL) ∧
    (0 < ((initState gC1 BLACK 1).node
        (selectLoop (fun _ _ => 0) (initState gC1 BLACK 1)
          (initState gC1 BLACK 1).nodes.length 0 gC1 BLACK).1).moves_count →
      MAX_NODES ≤ (initState gC1 BLACK 1).nodes.length →
      (iterate (fun _ _ => 0) (fun _ => 1 / 2) gC1 BLACK (initState gC1 BLACK 1)).oom = true ∧
        (iterate (fun _ _ => 0) (fun _ => 1 / 2) gC1 BLACK
          (initState gC1 BLACK 1)).new_count = none ∧
        (iterate (fun _ _ => 0) (fun _ => 1 / 2) gC1 BLACK
          (initState gC1 BLACK 1)).terminal = false ∧
        (iterate (fun _ _ => 0) (fun _ => 1 / 2) gC1 BLACK
          (initState gC1 BLACK 1)).win_prob =
          (fun _ => (1 / 2 : ℚ))
            (apply_move
              (selectLoop (fun _ _ => 0) (initState gC1 BLACK 1)
                (initState gC1 BLACK 1).nodes.length 0 gC1 BLACK).2.1
              (pickMove (initState gC1 BLACK 1)
                (selectLoop (fun _ _ => 0) (initState gC1 BLACK 1)
                  (initState gC1 BLACK 1).nodes.length 0 gC1 BLACK).1)) ∧
        ((iterate (fun _ _ => 0) (fun _ => 1 / 2) gC1 BLACK
              (initState gC1 BLACK 1)).state.node
            (selectLoop (fun _ _ => 0) (initState gC1 BLACK 1)
              (initState gC1 BLACK 1).nodes.length 0 gC1 BLACK).1).visits =
          ((initState gC1 BLACK 1).node
              (selectLoop (fun _ _ => 0) (initState gC1 BLACK 1)
                (initState gC1 BLACK 1).nodes.length 0 gC1 BLACK).1).visits + 1) :=
  claim_C8 (fun _ _ => 0) (fun _ => 1 / 2) gC1 BLACK (initState gC1 BLACK 1)
    (initState_inv gC1 BLACK 1)

/-- Exit characterisation of the search loop: if the break condition is
false at the checks before iterations `0, 256, …, 256(k-1)` and true at the
check before iteration `256k`, then with any fuel of at least `k` blocks the
loop stops exactly there, returning the state after `256k` iterations. -/
theorem searchLoop_spec (sel : SState → Nat → Nat) (evalFn : Board → ℚ)
    (rootB : Board) (rootP : Int) (time_up : Nat → Bool) :
    ∀ (k blocks : Nat) (st : SState) (iters : Nat), k ≤ blocks →
      (∀ j, j < k →
        stopCond time_up ((runIters sel evalFn rootB rootP 256)^[j] st)
          (iters + 256 * j) = false) →
      stopCond time_up ((runIters sel evalFn rootB rootP 256)^[k] st)
        (iters + 256 * k) = true →
      searchLoop sel evalFn rootB rootP time_up blocks st iters =
        ((runIters sel evalFn rootB rootP 256)^[k] st, iters + 256 * k) := by
  intro k
  induction k with
  | zero =>
    intro blocks st iters _ _ htrue
    simp only [Function.iterate_zero_apply, Nat.mul_zero, Nat.add_zero] at htrue ⊢
    cases blocks with
    | zero => rfl
    | succ b => rw [searchLoop, if_pos htrue]
  | succ n ih =>
    intro blocks st iters hkb hfalse htrue
    cases blocks with
    | zero => exact absurd hkb (by omega)
    | succ b =>
      have h0 := hfalse 0 (by omega)
      simp only [Function.iterate_zero_apply, Nat.mul_zero, Nat.add_zero] at h0
      rw [searchLoop, if_neg (by simp [h0])]
      have hf2 : ∀ j, j < n →
          stopCond time_up ((runIters sel evalFn rootB rootP 256)^[j]
            (runIters sel evalFn rootB rootP 256 st)) (iters + 256 + 256 * j) = false := by
        intro j hj
        have hthis := hfalse (j + 1) (by omega)
        rw [Function.iterate_succ_apply] at hthis
        have e : iters + 256 * (j + 1) = iters + 256 + 256 * j := by ring
        rw [e] at hthis
        exact hthis
      have ht2 : stopCond time_up ((runIters sel evalFn rootB rootP 256)^[n]
          (runIters sel evalFn rootB rootP 256 st)) (iters + 256 + 256 * n) = true := by
        have hthis := htrue
        rw [Function.iterate_succ_apply] at hthis
        have e : iters + 256 * (n + 1) = iters + 256 + 256 * n := by ring
        rw [e] at hthis
        exact hthis
      rw [ih b (runIters sel evalFn rootB rootP 256 st) (iters + 256) (by omega) hf2 ht2,
        ← Function.iterate_succ_apply]
      have e2 : iters + 256 + 256 * n = iters + 256 * (n + 1) := by ring
      rw [e2]

/--
C7.  Under a monotone, eventually-true deadline oracle the search
terminates: there is a block count `k` such that the break condition —
checked exactly before iterations `0, 256, 512, …` (every 256th iteration,
not every iteration) — is false at every earlier check, true at the check
before iteration `256k`, and with any loop fuel of at least `k` blocks the
search loop returns exactly the state after `256k` iterations (so the loop
exits at the first qualifying check: deadline passed or a pool near
capacity).
-/
theorem claim_C7 (sel : SState → Nat → Nat) (evalFn : Board → ℚ)
    (rootB : Board) (rootP : Int) (seed : Nat) (time_up : Nat → Bool)
    (hmono : ∀ m n : Nat, m ≤ n → time_up m = true → time_up n = true)
    (hev : ∃ N, time_up N = true) :
    ∃ k : Nat,
      (∀ j, j < k → stopCond time_up
        ((runIters sel evalFn rootB rootP 256)^[j] (initState rootB rootP seed))
        (256 * j) = false) ∧
      stopCond time_up
        ((runIters sel evalFn rootB rootP 256)^[k] (initState rootB rootP seed))
        (256 * k) = true ∧
      ∀ blocks, k ≤ blocks →
        searchLoop sel evalFn rootB rootP time_up blocks (initState rootB rootP seed) 0 =
          ((runIters sel evalFn rootB rootP 256)^[k] (initState rootB rootP seed),
            256 * k) := by
  obtain ⟨N, hN⟩ := hev
  have hex : ∃ n, stopCond time_up
      ((runIters sel evalFn rootB rootP 256)^[n] (initState rootB rootP seed))
      (256 * n) = true := by
    refine ⟨N, ?_⟩
    have hup : time_up (256 * N) = true := hmono N (256 * N) (by omega) hN
    simp [stopCond, hup]
  refine ⟨Nat.find hex, fun j hj => by simpa using Nat.find_min hex hj,
    Nat.find_spec hex, ?_⟩
  intro blocks hkb
  have hf : ∀ j, j < Nat.find hex → stopCond time_up
      ((runIters sel evalFn rootB rootP 256)^[j] (initState rootB rootP seed))
      (0 + 256 * j) = false := by
    intro j hj
    rw [Nat.zero_add]
    simpa using Nat.find_min hex hj
  have ht : stopCond time_up
      ((runIters sel evalFn rootB rootP 256)^[Nat.find hex] (initState rootB rootP seed))
      (0 + 256 * Nat.find hex) = true := by
    rw [Nat.zero_add]
    exact Nat.find_spec hex
  rw [searchLoop_spec sel evalFn rootB rootP time_up (Nat.find hex) blocks
    (initState rootB rootP seed) 0 hkb hf ht, Nat.zero_add]

/-- Witness for C7: with the always-true deadline oracle the hypotheses hold
trivially and the loop exits at its very first check. -/
theorem claim_C7_witness :
    ((∀ m n : Nat, m ≤ n → (fun _ : Nat => true) m = true →
        (fun _ : Nat => true) n = true) ∧
      ∃ N, (fun _ : Nat => true) N = true) ∧
    ∃ k : Nat,
      (∀ j, j < k → stopCond (fun _ => true)
        ((runIters (fun _ _ => 0) (fun _ => 1 / 2) gC1 BLACK 256)^[j]
          (initState gC1 BLACK 1))
        (256 * j) = false) ∧
      stopCond (fun _ => true)
        ((runIters (fun _ _ => 0) (fun _ => 1 / 2) gC1 BLACK 256)^[k]
          (initState gC1 BLACK 1))
        (256 * k) = true ∧
      ∀ blocks, k ≤ blocks →
        searchLoop (fun _ _ => 0) (fun _ => 1 / 2) gC1 BLACK (fun _ => true) blocks
            (initState gC1 BLACK 1) 0 =
          ((runIters (fun _ _ => 0) (fun _ => 1 / 2) gC1 BLACK 256)^[k]
            (initState gC1 BLACK 1), 256 * k) :=
  ⟨⟨fun _ _ _ h => h, ⟨0, rfl⟩⟩,
    claim_C7 (fun _ _ => 0) (fun _ => 1 / 2) gC1 BLACK 1 (fun _ => true)
      (fun _ _ _ h => h) ⟨0, rfl⟩⟩

/-! ## C3 and C10: the returned move -/

/-- A generated move's source coordinates are on-board (non-negative), so no
legal move equals the `(-1,…,-1)` sentinel. -/
theorem legal_ne_sentinel {g : Board} {c : Int} {m : Move}
    (hm : m ∈ get_legal_moves g c) : m ≠ sentinelMove := by
  obtain ⟨p, hp, -, hx0, -⟩ := mem_get_legal_moves hm
  intro he
  rw [he] at hx0
  have h2 : (-1 : Int) = (p : Int) / 8 := hx0
  omega

/-- In every invariant-satisfying state the move `search` would return is
the sentinel or a legal root move. -/
theorem searchResult_legal {rootB : Board} {rootP : Int} {st : SState}
    (h : Inv rootB rootP st) :
    searchResult st = sentinelMove ∨ searchResult st ∈ get_legal_moves rootB rootP := by
  rcases hb : st.best_child with _ | c
  · rcases hf : (st.node 0).first_child with _ | c
    · left
      simp only [searchResult, hb, hf]
    · right
      obtain ⟨hcl, hcp⟩ := h.fc_valid 0 c h.len_pos hf
      have h3 := h.child_move c hcl hcp
      simp only [searchResult, hb, hf]
      exact h3
  · right
    rcases h.best_inv with ⟨g1, g2, g3⟩ | ⟨b, hb1, hb2, hb3, hb4, hb5⟩
    · rw [hb] at g1
      exact absurd g1 (by simp)
    · rw [hb] at hb2
      injection hb2 with hbc
      subst hbc
      simp only [searchResult, hb]
      exact h.child_move c hb1 hb3

/--
C3.  In the state the search loop stops in, whenever the root has at least
one child the returned move is the stored move of a root child whose visit
count is maximal among all root children (the robust child); and the search
returns the sentinel move exactly when the root never gained any children.
-/
theorem claim_C3 (sel : SState → Nat → Nat) (evalFn : Board → ℚ)
    (rootB : Board) (rootP : Int) (time_up : Nat → Bool) (seed blocks : Nat) :
    let stF :=
      (searchLoop sel evalFn rootB rootP time_up blocks (initState rootB rootP seed) 0).1
    ((∃ c, c < stF.nodes.length ∧ (stF.node c).parent = some 0) →
      ∃ c, c < stF.nodes.length ∧ (stF.node c).parent = some 0 ∧
        searchResult stF = (stF.node c).move ∧
        ∀ d, d < stF.nodes.length → (stF.node d).parent = some 0 →
          (stF.node d).visits ≤ (stF.node c).visits) ∧
    (searchResult stF = sentinelMove ↔
      ∀ c, c < stF.nodes.length → (stF.node c).parent ≠ some 0) := by
  intro stF
  have hInv : Inv rootB rootP stF :=
    searchLoop_inv sel evalFn rootB rootP time_up blocks _ 0 (initState_inv rootB rootP seed)
  constructor
  · rintro ⟨c0, hc0l, hc0p⟩
    rcases hInv.best_inv with ⟨g1, g2, g3⟩ | ⟨b, hb1, hb2, hb3, hb4, hb5⟩
    · exact absurd hc0p (g3 c0 hc0l)
    · refine ⟨b, hb1, hb3, ?_, hb5⟩
      simp only [searchResult, hb2]
  · constructor
    · intro hs c hcl hp
      rcases hInv.best_inv with ⟨g1, g2, g3⟩ | ⟨b, hb1, hb2, hb3, hb4, hb5⟩
      · exact g3 c hcl hp
      · have hmv : searchResult stF = (stF.node b).move := by
          simp only [searchResult, hb2]
        rw [hmv] at hs
        exact legal_ne_sentinel (hInv.child_move b hb1 hb3) hs
    · intro hnone
      rcases hInv.best_inv with ⟨g1, g2, g3⟩ | ⟨b, hb1, hb2, hb3, hb4, hb5⟩
      · have hfc : (stF.node 0).first_child = none := hInv.root_fc.2 hnone
        simp only [searchResult, g1, hfc]
      · exact absurd hb3 (hnone b hb1)

/-! ## C4: the UCB selection formula -/

/-- When no child's score strictly beats the running best, the scan keeps
the running pair unchanged. -/
theorem uct_fold_keep (C pv : ℝ) :
    ∀ (cs : List (ℝ × ℝ)) (i0 : Nat) (b : Option Nat) (bs : ℝ),
      (∀ k, k < cs.length →
        code_uct_score C pv (cs.getD k (0, 0)).1 (cs.getD k (0, 0)).2 ≤ bs) →
      uct_fold C pv cs i0 (b, bs) = (b, bs) := by
  intro cs
  induction cs with
  | nil => intro i0 b bs _; rfl
  | cons c rest ih =>
    obtain ⟨w, v⟩ := c
    intro i0 b bs h
    have h0 : code_uct_score C pv w v ≤ bs := h 0 (Nat.succ_pos _)
    rw [uct_fold, if_neg (not_lt.mpr h0)]
    exact ih (i0 + 1) b bs (fun k hk => h (k + 1) (Nat.succ_lt_succ hk))

/-- The scan returns the index of the first child attaining the maximal
score, provided some child's score strictly beats the initial best. -/
theorem uct_fold_argmax (C pv : ℝ) :
    ∀ (cs : List (ℝ × ℝ)) (i0 : Nat) (b : Option Nat) (bs : ℝ),
      (∃ k, k < cs.length ∧
        bs < code_uct_score C pv (cs.getD k (0, 0)).1 (cs.getD k (0, 0)).2) →
      ∃ i, i < cs.length ∧
        (uct_fold C pv cs i0 (b, bs)).1 = some (i0 + i) ∧
        bs < code_uct_score C pv (cs.getD i (0, 0)).1 (cs.getD i (0, 0)).2 ∧
        (∀ j, j < cs.length →
          code_uct_score C pv (cs.getD j (0, 0)).1 (cs.getD j (0, 0)).2 ≤
            code_uct_score C pv (cs.getD i (0, 0)).1 (cs.getD i (0, 0)).2) ∧
        (∀ j, j < i →
          code_uct_score C pv (cs.getD j (0, 0)).1 (cs.getD j (0, 0)).2 <
            code_uct_score C pv (cs.getD i (0, 0)).1 (cs.getD i (0, 0)).2) := by
  intro cs
  induction cs with
  | nil =>
    intro i0 b bs h
    obtain ⟨k, hk, -⟩ := h
    exact absurd hk (Nat.not_lt_zero k)
  | cons c rest ih =>
    obtain ⟨w, v⟩ := c
    intro i0 b bs h
    rw [uct_fold]
    by_cases hw : bs < code_uct_score C pv w v
    · rw [if_pos hw]
      by_cases hrest : ∃ k, k < rest.length ∧ code_uct_score C pv w v <
          code_uct_score C pv (rest.getD k (0, 0)).1 (rest.getD k (0, 0)).2
      · obtain ⟨i', hi'l, hsel, hgt, hmax, hlt⟩ :=
          ih (i0 + 1) (some i0) (code_uct_score C pv w v) hrest
        refine ⟨i' + 1, Nat.succ_lt_succ hi'l, ?_, lt_trans hw hgt, ?_, ?_⟩
        · rw [hsel]
          exact congrArg some (by omega)
        · intro j hj
          cases j with
          | zero => exact le_of_lt hgt
          | succ j' => exact hmax j' (Nat.lt_of_succ_lt_succ hj)
        · intro j hj
          cases j with
          | zero => exact hgt
          | succ j' => exact hlt j' (Nat.lt_of_succ_lt_succ hj)
      · push_neg at hrest
        rw [uct_fold_keep C pv rest (i0 + 1) (some i0) (code_uct_score C pv w v) hrest]
        refine ⟨0, Nat.succ_pos _, ?_, hw, ?_, ?_⟩
        · show some i0 = some (i0 + 0)
          rw [Nat.add_zero]
        · intro j hj
          cases j with
          | zero => exact le_refl _
          | succ j' => exact hrest j' (Nat.lt_of_succ_lt_succ hj)
        · intro j hj
          exact absurd hj (Nat.not_lt_zero j)
    · rw [if_neg hw]
      obtain ⟨k, hk, hbk⟩ := h
      have hkr : ∃ k', k' < rest.length ∧ bs <
          code_uct_score C pv (rest.getD k' (0, 0)).1 (rest.getD k' (0, 0)).2 := by
        cases k with
        | zero => exact absurd hbk hw
        | succ k' => exact ⟨k', Nat.lt_of_succ_lt_succ hk, hbk⟩
      obtain ⟨i', hi'l, hsel, hgt, hmax, hlt⟩ := ih (i0 + 1) b bs hkr
      refine ⟨i' + 1, Nat.succ_lt_succ hi'l, ?_, hgt, ?_, ?_⟩
      · rw [hsel]
        exact congrArg some (by omega)
      · intro j hj
        cases j with
        | zero => exact le_trans (le_of_not_lt hw) (le_of_lt hgt)
        | succ j' => exact hmax j' (Nat.lt_of_succ_lt_succ hj)
      · intro j hj
        cases j with
        | zero => exact lt_of_le_of_lt (le_of_not_lt hw) hgt
        | succ j' => exact hlt j' (Nat.lt_of_succ_lt_succ hj)

/-- Counterexample to C4 as stated: with the parent at 1 visit and children
`(wins 60, visits 100)` and `(wins 0.55, visits 1)`, the source's scan
(guarded denominators and `ln(parent+1) = ln 2`) selects the second child,
while the claim's UCB1 formula (`ln(parent) = ln 1 = 0`, pure means) selects
the first. -/
theorem claim_C4_counterexample :
    uct_select_child (uct_C 1) 1 [(60, 100), (11 / 20, 1)] = some 1 ∧
      claim_select_child (uct_C 1) 1 [(60, 100), (11 / 20, 1)] = some 0 := by
  have hCgt : (0.177 : ℝ) < uct_C 1 := by
    rw [uct_C]
    have e : (-0.008 : ℝ) * ((1 : ℝ) - 1.41) = 0.00328 := by norm_num
    rw [e]
    have h1 : (1 : ℝ) < Real.exp 0.00328 := by
      rw [Real.one_lt_exp_iff]
      norm_num
    nlinarith
  have hCpos : (0 : ℝ) < uct_C 1 := lt_trans (by norm_num) hCgt
  have e2 : Real.log ((1 : ℝ) + 1) = Real.log 2 := by norm_num
  have hsb : Real.sqrt (Real.log 2 / (100 + 1 / 1000000)) < 0.0833 := by
    rw [Real.sqrt_lt' (by norm_num), div_lt_iff₀ (by norm_num)]
    nlinarith [Real.log_two_lt_d9]
  have hsa : (0.832 : ℝ) < Real.sqrt (Real.log 2 / (1 + 1 / 1000000)) := by
    rw [Real.lt_sqrt (by norm_num), lt_div_iff₀ (by norm_num)]
    nlinarith [Real.log_two_gt_d9]
  have hs0gt : (-1000000000 : ℝ) < code_uct_score (uct_C 1) 1 60 100 := by
    rw [code_uct_score, e2]
    have h1 : (0 : ℝ) ≤ 60 / (100 + 1 / 1000000) := by norm_num
    have h2 : (0 : ℝ) ≤ uct_C 1 * Real.sqrt (Real.log 2 / (100 + 1 / 1000000)) :=
      mul_nonneg (le_of_lt hCpos) (Real.sqrt_nonneg _)
    linarith
  have hstep : code_uct_score (uct_C 1) 1 60 100 < code_uct_score (uct_C 1) 1 (11 / 20) 1 := by
    rw [code_uct_score, code_uct_score, e2]
    have h1 : uct_C 1 * 0.832 < uct_C 1 * Real.sqrt (Real.log 2 / (1 + 1 / 1000000)) :=
      mul_lt_mul_of_pos_left hsa hCpos
    have h2 : uct_C 1 * Real.sqrt (Real.log 2 / (100 + 1 / 1000000)) < uct_C 1 * 0.0833 :=
      mul_lt_mul_of_pos_left hsb hCpos
    have h3 : (0.177 : ℝ) * (0.832 - 0.0833) < uct_C 1 * (0.832 - 0.0833) :=
      mul_lt_mul_of_pos_right hCgt (by norm_num)
    have h60 : (60 : ℝ) / (100 + 1 / 1000000) < 0.6 := by
      rw [div_lt_iff₀ (by norm_num)]
      norm_num
    have h55 : (0.549999 : ℝ) < (11 / 20) / (1 + 1 / 1000000) := by
      rw [lt_div_iff₀ (by norm_num)]
      norm_num
    nlinarith [h1, h2, h3, h60, h55]
  constructor
  · rw [uct_select_child]
    simp only [uct_fold]
    rw [if_pos hs0gt, if_pos hstep]
  · have c0 : claim_uct_score (uct_C 1) 1 60 100 = 60 / 100 := by
      rw [claim_uct_score, Real.log_one, zero_div, Real.sqrt_zero, mul_zero, add_zero]
    have c1 : claim_uct_score (uct_C 1) 1 (11 / 20) 1 = 11 / 20 / 1 := by
      rw [claim_uct_score, Real.log_one, zero_div, Real.sqrt_zero, mul_zero, add_zero]
    have hg0 : (-1000000000 : ℝ) < claim_uct_score (uct_C 1) 1 60 100 := by
      rw [c0]
      norm_num
    have hng : ¬ (claim_uct_score (uct_C 1) 1 60 100 <
        claim_uct_score (uct_C 1) 1 (11 / 20) 1) := by
      rw [c0, c1]
      norm_num
    rw [claim_select_child]
    simp only [claim_uct_fold]
    rw [if_pos hg0, if_neg hng]

/--
C4 (amended).  `uct_select_child` scans the child list and returns the
first child whose score — computed with the source's formula
`wins/(visits + 1e-6) + C·sqrt(ln(parent_visits + 1)/(visits + 1e-6))`,
not the claimed `wins/visits + C·sqrt(ln(parent_visits)/visits)` — is
maximal among all children (strict comparison: ties keep the earlier
child), provided every score exceeds the `-1e9` initialisation of the
running best.
-/
theorem claim_C4_amended (C pv : ℝ) (cs : List (ℝ × ℝ)) (hne : cs ≠ [])
    (hs : ∀ k, k < cs.length →
      (-1000000000 : ℝ) < code_uct_score C pv (cs.getD k (0, 0)).1 (cs.getD k (0, 0)).2) :
    ∃ i, i < cs.length ∧ uct_select_child C pv cs = some i ∧
      (∀ j, j < cs.length →
        code_uct_score C pv (cs.getD j (0, 0)).1 (cs.getD j (0, 0)).2 ≤
          code_uct_score C pv (cs.getD i (0, 0)).1 (cs.getD i (0, 0)).2) ∧
      ∀ j, j < i →
        code_uct_score C pv (cs.getD j (0, 0)).1 (cs.getD j (0, 0)).2 <
          code_uct_score C pv (cs.getD i (0, 0)).1 (cs.getD i (0, 0)).2 := by
  have hex : ∃ k, k < cs.length ∧
      (-1000000000 : ℝ) < code_uct_score C pv (cs.getD k (0, 0)).1 (cs.getD k (0, 0)).2 := by
    cases cs with
    | nil => exact absurd rfl hne
    | cons c rest => exact ⟨0, Nat.succ_pos _, hs 0 (Nat.succ_pos _)⟩
  obtain ⟨i, hi, hsel, hgt, hmax, hlt⟩ := uct_fold_argmax C pv cs 0 none (-1000000000) hex
  refine ⟨i, hi, ?_, hmax, hlt⟩
  rw [uct_select_child, hsel, Nat.zero_add]

/-- Witness for C4 (amended): the singleton child list `[(0, 1)]` with
`C = 0`, whose single score `0` exceeds `-1e9`. -/
theorem claim_C4_witness :
    ((([((0 : ℝ), (1 : ℝ))] : List (ℝ × ℝ)) ≠ []) ∧
      (∀ k, k < ([((0 : ℝ), (1 : ℝ))] : List (ℝ × ℝ)).length →
        (-1000000000 : ℝ) < code_uct_score 0 1
          (([((0 : ℝ), (1 : ℝ))] : List (ℝ × ℝ)).getD k (0, 0)).1
          (([((0 : ℝ), (1 : ℝ))] : List (ℝ × ℝ)).getD k (0, 0)).2)) ∧
    ∃ i, i < ([((0 : ℝ), (1 : ℝ))] : List (ℝ × ℝ)).length ∧
      uct_select_child 0 1 [((0 : ℝ), (1 : ℝ))] = some i ∧
      (∀ j, j < ([((0 : ℝ), (1 : ℝ))] : List (ℝ × ℝ)).length →
        code_uct_score 0 1
            (([((0 : ℝ), (1 : ℝ))] : List (ℝ × ℝ)).getD j (0, 0)).1
            (([((0 : ℝ), (1 : ℝ))] : List (ℝ × ℝ)).getD j (0, 0)).2 ≤
          code_uct_score 0 1
            (([((0 : ℝ), (1 : ℝ))] : List (ℝ × ℝ)).getD i (0, 0)).1
            (([((0 : ℝ), (1 : ℝ))] : List (ℝ × ℝ)).getD i (0, 0)).2) ∧
      ∀ j, j < i →
        code_uct_score 0 1
            (([((0 : ℝ), (1 : ℝ))] : List (ℝ × ℝ)).getD j (0, 0)).1
            (([((0 : ℝ), (1 : ℝ))] : List (ℝ × ℝ)).getD j (0, 0)).2 <
          code_uct_score 0 1
            (([((0 : ℝ), (1 : ℝ))] : List (ℝ × ℝ)).getD i (0, 0)).1
            (([((0 : ℝ), (1 : ℝ))] : List (ℝ × ℝ)).getD i (0, 0)).2 := by
  have hs : ∀ k, k < ([((0 : ℝ), (1 : ℝ))] : List (ℝ × ℝ)).length →
      (-1000000000 : ℝ) < code_uct_score 0 1
        (([((0 : ℝ), (1 : ℝ))] : List (ℝ × ℝ)).getD k (0, 0)).1
        (([((0 : ℝ), (1 : ℝ))] : List (ℝ × ℝ)).getD k (0, 0)).2 := by
    intro k hk
    simp only [List.length_cons, List.length_nil] at hk
    have hk0 : k = 0 := by omega
    subst hk0
    show (-1000000000 : ℝ) < code_uct_score 0 1 0 1
    rw [code_uct_score]
    norm_num
  exact ⟨⟨by simp, hs⟩,
    claim_C4_amended 0 1 [((0 : ℝ), (1 : ℝ))] (by simp) hs⟩

/--
C10.  The move `search` returns for a root board and the searching side is
the no-move sentinel or an element of the legal-move list `get_legal_moves`
generates for that root board and side — the engine never produces an
illegal move.
-/
theorem claim_C10 (sel : SState → Nat → Nat) (evalFn : Board → ℚ)
    (rootB : Board) (rootP : Int) (time_up : Nat → Bool) (seed blocks : Nat) :
    search sel evalFn rootB rootP time_up seed blocks = sentinelMove ∨
      search sel evalFn rootB rootP time_up seed blocks ∈ get_legal_moves rootB rootP :=
  searchResult_legal
    (searchLoop_inv sel evalFn rootB rootP time_up blocks _ 0 (initState_inv rootB rootP seed))

end Amazons
